import Mathlib

/-!
# Verification of the number-theory core of pts/pybasealgo (src/intalg.py)

This file gives a shallow embedding, in Lean 4, of the integer-algorithm core
of `src/intalg.py`: bit counting, exact integer square / k-th roots by Newton
iteration, the odd-only sieve of Eratosthenes, the process-wide prime cache and
its operations, the prime-count / prime-index over-estimators with their
fixed-point log tables, the (deterministic and probabilistic) Miller-Rabin
primality test, the Pollard-rho and Brent randomized divisor finders, and the
factorization driver.

Conventions of the embedding:
* Python arbitrary-precision integers are `Nat` where the source guarantees
  nonnegativity and `Int` where a sign can occur; `/` and `%` on nonnegative
  operands coincide with Python's floor division and modulo.
* Unbounded `while` loops become structurally recursive functions with an
  explicit fuel argument; `none` (or a default) on fuel exhaustion.  All fuel
  amounts used by wrappers are proved (or chosen) sufficient where a claim
  needs termination.
* The process-wide mutable prime cache (`_prime_cache`,
  `_prime_cache_limit_ary`) becomes an explicit state value of type `PCache`
  threaded through the functions that read or write it.
* Fallible code returns `Except PyErr` or `Option`.
* Python `pow(b, e, n)` is modular exponentiation; it is embedded as a
  fuel-based square-and-multiply function `powMod` proved equal to
  `b ^ e % n`.
-/

set_option maxHeartbeats 1000000

namespace Intalg

/-- Error outcomes of the embedded Python code: `ValueError`, `TypeError`,
`NameError` (an undefined global name is looked up at call time),
`AssertionError`. -/
inductive PyErr where
  | valueError
  | typeError
  | nameError
  | assertionError
  deriving DecidableEq, Repr

/-! ## Data tables from src/intalg.py

The four byte-string tables of the source, decoded byte for byte.
-/

/-- `FIRST_PRIMES` from src/intalg.py: the 54 primes below 256, decoded from
the packed byte string. -/
def FIRST_PRIMES : List Nat :=
  [2, 3, 5, 7, 11, 13, 17, 19, 23, 29, 31, 37, 41, 43, 47, 53, 59, 61, 67, 71,
   73, 79, 83, 89, 97, 101, 103, 107, 109, 113, 127, 131, 137, 139, 149, 151,
   157, 163, 167, 173, 179, 181, 191, 193, 197, 199, 211, 223, 227, 229, 233,
   239, 241, 251]

/-- `FIRST_PRIMES_MAX` from src/intalg.py: the last entry of `FIRST_PRIMES`. -/
def FIRST_PRIMES_MAX : Nat := 251

/-- `LOG2_256_MORE_TABLE` from src/intalg.py: 257 16-bit values, decoded from
the `struct.unpack('>257H', ...)` byte string (index `i` holds an upper bound
of `256 * log2(i)`). -/
def LOG2_256_MORE_TABLE : List Nat :=
  [0, 0, 256, 406, 512, 595, 662, 719, 768, 812, 851, 886, 918, 948, 975,
   1001, 1024, 1047, 1068, 1088, 1107, 1125, 1142, 1159, 1174, 1189, 1204,
   1218, 1231, 1244, 1257, 1269, 1280, 1292, 1303, 1314, 1324, 1334, 1344,
   1354, 1363, 1372, 1381, 1390, 1398, 1406, 1415, 1422, 1430, 1438, 1445,
   1453, 1460, 1467, 1474, 1481, 1487, 1494, 1500, 1506, 1513, 1519, 1525,
   1531, 1536, 1542, 1548, 1553, 1559, 1564, 1570, 1575, 1580, 1585, 1590,
   1595, 1600, 1605, 1610, 1614, 1619, 1624, 1628, 1633, 1637, 1641, 1646,
   1650, 1654, 1658, 1662, 1666, 1671, 1675, 1678, 1682, 1686, 1690, 1694,
   1698, 1701, 1705, 1709, 1712, 1716, 1719, 1723, 1726, 1730, 1733, 1737,
   1740, 1743, 1746, 1750, 1753, 1756, 1759, 1762, 1766, 1769, 1772, 1775,
   1778, 1781, 1784, 1787, 1790, 1792, 1795, 1798, 1801, 1804, 1807, 1809,
   1812, 1815, 1818, 1820, 1823, 1826, 1828, 1831, 1833, 1836, 1839, 1841,
   1844, 1846, 1849, 1851, 1854, 1856, 1858, 1861, 1863, 1866, 1868, 1870,
   1873, 1875, 1877, 1880, 1882, 1884, 1886, 1889, 1891, 1893, 1895, 1897,
   1899, 1902, 1904, 1906, 1908, 1910, 1912, 1914, 1916, 1918, 1920, 1922,
   1925, 1927, 1929, 1931, 1933, 1934, 1936, 1938, 1940, 1942, 1944, 1946,
   1948, 1950, 1952, 1954, 1955, 1957, 1959, 1961, 1963, 1965, 1966, 1968,
   1970, 1972, 1974, 1975, 1977, 1979, 1981, 1982, 1984, 1986, 1987, 1989,
   1991, 1993, 1994, 1996, 1998, 1999, 2001, 2002, 2004, 2006, 2007, 2009,
   2011, 2012, 2014, 2015, 2017, 2018, 2020, 2022, 2023, 2025, 2026, 2028,
   2029, 2031, 2032, 2034, 2035, 2037, 2038, 2040, 2041, 2043, 2044, 2046,
   2047, 2048]

/-- `LOG2_256_LESS_TABLE` from src/intalg.py: 256 16-bit values, decoded from
the `struct.unpack('>256H', ...)` byte string (index `a` holds a lower bound
of `256 * log2(a)`). -/
def LOG2_256_LESS_TABLE : List Nat :=
  [0, 0, 256, 405, 512, 594, 661, 718, 768, 811, 850, 885, 917, 947, 974,
   1000, 1024, 1046, 1067, 1087, 1106, 1124, 1141, 1158, 1173, 1188, 1203,
   1217, 1230, 1243, 1256, 1268, 1280, 1291, 1302, 1313, 1323, 1333, 1343,
   1353, 1362, 1371, 1380, 1389, 1397, 1405, 1414, 1421, 1429, 1437, 1444,
   1452, 1459, 1466, 1473, 1480, 1486, 1493, 1499, 1505, 1512, 1518, 1524,
   1530, 1536, 1541, 1547, 1552, 1558, 1563, 1569, 1574, 1579, 1584, 1589,
   1594, 1599, 1604, 1609, 1613, 1618, 1623, 1627, 1632, 1636, 1640, 1645,
   1649, 1653, 1657, 1661, 1665, 1670, 1674, 1677, 1681, 1685, 1689, 1693,
   1697, 1700, 1704, 1708, 1711, 1715, 1718, 1722, 1725, 1729, 1732, 1736,
   1739, 1742, 1745, 1749, 1752, 1755, 1758, 1761, 1765, 1768, 1771, 1774,
   1777, 1780, 1783, 1786, 1789, 1792, 1794, 1797, 1800, 1803, 1806, 1808,
   1811, 1814, 1817, 1819, 1822, 1825, 1827, 1830, 1832, 1835, 1838, 1840,
   1843, 1845, 1848, 1850, 1853, 1855, 1857, 1860, 1862, 1865, 1867, 1869,
   1872, 1874, 1876, 1879, 1881, 1883, 1885, 1888, 1890, 1892, 1894, 1896,
   1898, 1901, 1903, 1905, 1907, 1909, 1911, 1913, 1915, 1917, 1919, 1921,
   1924, 1926, 1928, 1930, 1932, 1933, 1935, 1937, 1939, 1941, 1943, 1945,
   1947, 1949, 1951, 1953, 1954, 1956, 1958, 1960, 1962, 1964, 1965, 1967,
   1969, 1971, 1973, 1974, 1976, 1978, 1980, 1981, 1983, 1985, 1986, 1988,
   1990, 1992, 1993, 1995, 1997, 1998, 2000, 2001, 2003, 2005, 2006, 2008,
   2010, 2011, 2013, 2014, 2016, 2017, 2019, 2021, 2022, 2024, 2025, 2027,
   2028, 2030, 2031, 2033, 2034, 2036, 2037, 2039, 2040, 2042, 2043, 2045,
   2046]

/-- `PRIME_COUNTS_STR_127` from src/intalg.py: 127 bytes; index `n` holds the
exact number of primes `<= n` for `0 <= n < 127`. -/
def PRIME_COUNTS_STR_127 : List Nat :=
  [0, 0, 1, 2, 2, 3, 3, 4, 4, 4, 4, 5, 5, 6, 6, 6, 6, 7, 7, 8, 8, 8, 8, 9, 9,
   9, 9, 9, 9, 10, 10, 11, 11, 11, 11, 11, 11, 12, 12, 12, 12, 13, 13, 14, 14,
   14, 14, 15, 15, 15, 15, 15, 15, 16, 16, 16, 16, 16, 16, 17, 17, 18, 18, 18,
   18, 18, 18, 19, 19, 19, 19, 20, 20, 21, 21, 21, 21, 21, 21, 22, 22, 22, 22,
   23, 23, 23, 23, 23, 23, 24, 24, 24, 24, 24, 24, 24, 24, 25, 25, 25, 25, 26,
   26, 27, 27, 27, 27, 28, 28, 29, 29, 29, 29, 30, 30, 30, 30, 30, 30, 30, 30,
   30, 30, 30, 30, 30, 30]

/-! ## bit_count -/

/-- Fuel-based halving recursion behind `bit_count`; the fuel is at least the
number of halvings, which is at most the argument itself. -/
def bitCountAux : Nat → Nat → Nat
  | 0, _ => 0
  | fuel + 1, a => if a ≤ 1 then 1 else bitCountAux fuel (a / 2) + 1

/-- `bit_count(a)` from src/intalg.py: the number of bits needed to represent
`abs(a)`, returning 1 for `a == 0`.  All call sites in the embedded core pass
nonnegative values, so the argument is `Nat`. -/
def bit_count (a : Nat) : Nat :=
  if a = 0 then 1 else bitCountAux a a

theorem bitCountAux_spec : ∀ a, 1 ≤ a → ∀ fuel, a ≤ fuel →
    2 ^ (bitCountAux fuel a - 1) ≤ a ∧ a < 2 ^ bitCountAux fuel a ∧
      1 ≤ bitCountAux fuel a := by
  intro a
  induction a using Nat.strong_induction_on with
  | _ a ih =>
    intro ha fuel hfuel
    match fuel with
    | 0 => omega
    | fuel + 1 =>
      by_cases h1 : a ≤ 1
      · have : a = 1 := le_antisymm h1 ha
        subst this
        simp [bitCountAux]
      · have ha2 : 2 ≤ a := by omega
        have hlt : a / 2 < a := Nat.div_lt_self (by omega) (by omega)
        have hge : 1 ≤ a / 2 := Nat.one_le_div_iff (by omega) |>.mpr (by omega)
        have hfu : a / 2 ≤ fuel := by omega
        obtain ⟨hl, hr, hpos⟩ := ih (a / 2) hlt hge fuel hfu
        have hb : bitCountAux (fuel + 1) a = bitCountAux fuel (a / 2) + 1 := by
          simp [bitCountAux, h1]
        rw [hb]
        set b := bitCountAux fuel (a / 2) with hbdef
        have h : b - 1 + 1 = b := by omega
        have hsplit : 2 ^ b = 2 ^ (b - 1) * 2 := by
          conv_lhs => rw [← h, pow_succ]
        refine ⟨?_, ?_, by omega⟩
        · rw [Nat.add_sub_cancel, hsplit]
          omega
        · have h2 : a / 2 + 1 ≤ 2 ^ b := hr
          have h3 : a < 2 * (a / 2) + 2 := by omega
          have h4 : 2 ^ (b + 1) = 2 ^ b * 2 := pow_succ 2 b
          omega

theorem bit_count_spec (a : Nat) (ha : 1 ≤ a) :
    2 ^ (bit_count a - 1) ≤ a ∧ a < 2 ^ bit_count a ∧ 1 ≤ bit_count a := by
  have h : bit_count a = bitCountAux a a := by
    unfold bit_count
    rw [if_neg (by omega)]
  rw [h]
  exact bitCountAux_spec a ha a le_rfl

/-! ## Modular exponentiation (Python built-in pow(b, e, n)) -/

/-- Fuel-based square-and-multiply; the fuel bounds the number of halvings of
the exponent, so fuel `e` is always sufficient. -/
def powModAux : Nat → Nat → Nat → Nat → Nat
  | 0, _, _, n => 1 % n
  | fuel + 1, b, e, n =>
    if e = 0 then 1 % n
    else
      let r := powModAux fuel ((b * b) % n) (e / 2) n
      if e % 2 = 1 then (r * b) % n else r

/-- Python's three-argument `pow(b, e, n)`, embedded executably. -/
def powMod (b e n : Nat) : Nat := powModAux e b e n

theorem powModAux_spec : ∀ e, ∀ fuel, e ≤ fuel → ∀ b n,
    powModAux fuel b e n = b ^ e % n := by
  intro e
  induction e using Nat.strong_induction_on with
  | _ e ih =>
    intro fuel hfuel b n
    match fuel with
    | fuel + 1 =>
      by_cases h0 : e = 0
      · subst h0; simp [powModAux]
      · have he2 : e / 2 < e := Nat.div_lt_self (by omega) (by omega)
        have hrec := ih (e / 2) he2 fuel (by omega) ((b * b) % n) n
        have hbb : ((b * b) % n) ^ (e / 2) % n = (b * b) ^ (e / 2) % n :=
          (Nat.pow_mod (b * b) (e / 2) n).symm
        have key : (b * b) ^ (e / 2) = b ^ (2 * (e / 2)) := by
          rw [two_mul, pow_add, ← mul_pow]
        by_cases hodd : e % 2 = 1
        · have hsplit : e = 2 * (e / 2) + 1 := by omega
          simp only [powModAux, if_neg h0, if_pos hodd]
          rw [hrec, hbb, key]
          rw [mul_comm (b ^ (2 * (e / 2)) % n) b, Nat.mul_mod_mod,
            mul_comm b (b ^ (2 * (e / 2))), ← pow_succ, ← hsplit]
        · have hsplit : e = 2 * (e / 2) := by omega
          simp only [powModAux, if_neg h0, if_neg hodd]
          rw [hrec, hbb, key, ← hsplit]
    | 0 =>
      have h : e = 0 := by omega
      subst h
      simp [powModAux]

theorem powMod_spec (b e n : Nat) : powMod b e n = b ^ e % n :=
  powModAux_spec e e le_rfl b n

end Intalg

namespace Intalg

/-! ## sqrt_floor -/

/-- One Newton half-step of the integer square-root iteration in
`sqrt_floor` (src/intalg.py): `a -> (a + n / a) >> 1`. -/
def newtonStep (n a : Nat) : Nat := (a + n / a) / 2

/-- The `while a != b` loop of `sqrt_floor` (also used verbatim by the
`k == 2` branch of `root_floor`).  One iteration performs the two half-steps
of the source line `b = a; a = (a + n/a) >> 1; c = a; a = (a + n/a) >> 1`,
and the function returns `min a c`, which is what the source returns after
the loop (`if a < c: return a else: return c`). -/
def sqrtLoopAux : Nat → Nat → Nat → Nat → Nat → Nat
  | 0, _, a, _, c => min a c
  | fuel + 1, n, a, b, c =>
    if a = b then min a c
    else sqrtLoopAux fuel n (newtonStep n (newtonStep n a)) a (newtonStep n a)

/-- The Newton square-root body shared verbatim by `sqrt_floor` (for `n >= 4`)
and by the `k == 2` branch of `root_floor` (for `n >= 2`): first approximation
`a = 1 << ((bit_count(n) - 1) >> 1)`, two half-steps, then the loop. -/
def sqrtNewtonMain (n : Nat) : Nat :=
  let a0 := 1 <<< ((bit_count n - 1) / 2)
  let c1 := newtonStep n a0
  let a2 := newtonStep n c1
  sqrtLoopAux n n a2 a0 c1

/-- `sqrt_floor(n)` from src/intalg.py: floor of the square root by Newton
iteration with truncating division.  The source raises `ValueError` on
negative input; the embedding therefore takes a `Nat`. -/
def sqrt_floor (n : Nat) : Nat :=
  if n < 4 then (if n = 0 then 0 else 1)
  else sqrtNewtonMain n

theorem newtonStep_ge_sqrt (n x : Nat) (hx : 1 ≤ x) :
    Nat.sqrt n ≤ newtonStep n x := by
  set r := Nat.sqrt n with hr
  have hrn : r * r ≤ n := Nat.sqrt_le n
  have hdiv : 2 * r ≤ x + n / x := by
    rcases le_total x (2 * r) with hle | hgt
    · have hkey : (2 * r - x) * x ≤ r * r := by
        zify [hle]
        nlinarith [sq_nonneg ((r : ℤ) - x)]
      have h2 : 2 * r - x ≤ n / x :=
        (Nat.le_div_iff_mul_le (by omega)).mpr (le_trans hkey hrn)
      omega
    · exact le_trans hgt (Nat.le_add_right _ _)
  unfold newtonStep
  omega

theorem newtonStep_lt_self (n x : Nat) (hx : Nat.sqrt n < x) :
    newtonStep n x < x := by
  set r := Nat.sqrt n with hr
  have hq : n / x ≤ r := by
    have h1 : n / x < r + 1 := by
      rw [Nat.div_lt_iff_lt_mul (by omega)]
      calc n < (r + 1) * (r + 1) := Nat.lt_succ_sqrt n
        _ ≤ (r + 1) * x := by
          exact Nat.mul_le_mul_left _ (by omega)
    omega
  unfold newtonStep
  omega

theorem newtonStep_sqrt_le (n : Nat) (hr : 1 ≤ Nat.sqrt n) :
    newtonStep n (Nat.sqrt n) ≤ Nat.sqrt n + 1 := by
  set r := Nat.sqrt n with hrdef
  have hq : n / r < r + 3 := by
    rw [Nat.div_lt_iff_lt_mul (by omega)]
    have := Nat.lt_succ_sqrt n
    nlinarith
  unfold newtonStep
  omega

theorem newtonStep_sqrt_succ (n : Nat) (hr : 1 ≤ Nat.sqrt n) :
    newtonStep n (Nat.sqrt n + 1) = Nat.sqrt n := by
  set r := Nat.sqrt n with hrdef
  have hq1 : n / (r + 1) ≤ r := by
    have h1 : n / (r + 1) < r + 1 := by
      rw [Nat.div_lt_iff_lt_mul (by omega)]
      have := Nat.lt_succ_sqrt n
      nlinarith
    omega
  have hq2 : r - 1 ≤ n / (r + 1) := by
    rw [Nat.le_div_iff_mul_le (by omega)]
    have h2 : r * r ≤ n := Nat.sqrt_le n
    zify [hr]
    nlinarith
  unfold newtonStep
  omega

theorem sqrtLoopAux_correct (n : Nat) (hn : 4 ≤ n) : ∀ fuel a b c,
    1 ≤ b → c = newtonStep n b → a = newtonStep n c →
    (a = Nat.sqrt n ∨ c = Nat.sqrt n ∨ a ≤ Nat.sqrt n + fuel) →
    sqrtLoopAux fuel n a b c = Nat.sqrt n := by
  have hr2 : 2 ≤ Nat.sqrt n := Nat.le_sqrt.mpr (by omega)
  set r := Nat.sqrt n with hrdef
  intro fuel
  induction fuel with
  | zero =>
    intro a b c hb hc ha hdis
    have hcge : r ≤ c := hc ▸ newtonStep_ge_sqrt n b hb
    have hage : r ≤ a := ha ▸ newtonStep_ge_sqrt n c (by omega)
    have hres : sqrtLoopAux 0 n a b c = min a c := rfl
    rw [hres]
    refine le_antisymm ?_ (le_min hage hcge)
    rcases hdis with h | h | h
    · exact le_trans (Nat.min_le_left a c) (le_of_eq h)
    · exact le_trans (Nat.min_le_right a c) (le_of_eq h)
    · have h2 : a = r := by omega
      exact le_trans (Nat.min_le_left a c) (le_of_eq h2)
  | succ fuel ih =>
    intro a b c hb hc ha hdis
    have hcge : r ≤ c := hc ▸ newtonStep_ge_sqrt n b hb
    have hage : r ≤ a := ha ▸ newtonStep_ge_sqrt n c (by omega)
    by_cases hab : a = b
    · -- loop exit: a = b, so c = newtonStep n a and a = newtonStep n c
      subst hab
      rw [sqrtLoopAux, if_pos rfl]
      refine le_antisymm ?_ (le_min hage hcge)
      rcases eq_or_lt_of_le hage with haeq | hagt
      · exact le_trans (Nat.min_le_left a c) (le_of_eq haeq.symm)
      · -- a > r: then c = newtonStep n a < a and a = newtonStep n c; c must be r
        have hclt : c < a := by
          rw [hc]
          exact newtonStep_lt_self n a hagt
        have hceq : c = r := by
          by_contra hne
          have hcgt : r < c := by omega
          have : a < c := by
            rw [ha]
            exact newtonStep_lt_self n c hcgt
          omega
        exact le_trans (Nat.min_le_right a c) (le_of_eq hceq)
    · rw [sqrtLoopAux, if_neg hab]
      have hb' : 1 ≤ a := by omega
      have hcge' : r ≤ newtonStep n a := newtonStep_ge_sqrt n a hb'
      have hage' : r ≤ newtonStep n (newtonStep n a) :=
        newtonStep_ge_sqrt n _ (by omega)
      refine ih (newtonStep n (newtonStep n a)) a (newtonStep n a) hb' rfl rfl ?_
      rcases eq_or_lt_of_le hage with haeq | hagt
      · -- a = r: newtonStep n r is r or r + 1
        have h1 : newtonStep n a ≤ r + 1 := by
          rw [← haeq]
          exact newtonStep_sqrt_le n (by omega)
        rcases eq_or_lt_of_le hcge' with he | hgt
        · right; left
          exact he.symm
        · have h2 : newtonStep n a = r + 1 := by omega
          left
          rw [h2]
          exact newtonStep_sqrt_succ n (by omega)
      · -- a > r
        have hclt : newtonStep n a < a := newtonStep_lt_self n a hagt
        rcases eq_or_lt_of_le hcge' with he | hgt
        · right; left
          exact he.symm
        · have halt : newtonStep n (newtonStep n a) < newtonStep n a :=
            newtonStep_lt_self n _ hgt
          rcases hdis with h | h | h
          · omega
          · -- c = r and a = newtonStep n c ≤ r + 1, contradiction with a > r gives a = r + 1
            have : a ≤ r + 1 := by
              rw [ha, h]
              exact newtonStep_sqrt_le n (by omega)
            omega
          · right; right
            omega

theorem newtonStep_le_n (n x : Nat) (_hx1 : 1 ≤ x) (hxn : x ≤ n) :
    newtonStep n x ≤ n := by
  have : n / x ≤ n := Nat.div_le_self n x
  unfold newtonStep
  omega

theorem sqrtNewtonMain_eq_sqrt (n : Nat) (hn : 4 ≤ n) :
    sqrtNewtonMain n = Nat.sqrt n := by
  unfold sqrtNewtonMain
  have hbc := bit_count_spec n (by omega)
  set a0 := 1 <<< ((bit_count n - 1) / 2) with ha0def
  have ha0eq : a0 = 2 ^ ((bit_count n - 1) / 2) := by
    rw [ha0def, Nat.shiftLeft_eq, one_mul]
  have ha0pos : 1 ≤ a0 := by
    rw [ha0eq]
    exact Nat.one_le_two_pow
  have ha0le : a0 ≤ n := by
    rw [ha0eq]
    calc 2 ^ ((bit_count n - 1) / 2) ≤ 2 ^ (bit_count n - 1) :=
          Nat.pow_le_pow_right (by omega) (Nat.div_le_self _ 2)
      _ ≤ n := hbc.1
  have hc1le : newtonStep n a0 ≤ n := newtonStep_le_n n a0 ha0pos ha0le
  have hc1pos : 1 ≤ newtonStep n a0 := by
    have := newtonStep_ge_sqrt n a0 ha0pos
    have := Nat.le_sqrt.mpr (by omega : 1 * 1 ≤ n)
    omega
  have ha2le : newtonStep n (newtonStep n a0) ≤ n :=
    newtonStep_le_n n _ hc1pos hc1le
  exact sqrtLoopAux_correct n hn n _ a0 _ ha0pos rfl rfl (by omega)

theorem sqrt_floor_eq_sqrt (n : Nat) : sqrt_floor n = Nat.sqrt n := by
  by_cases h4 : n < 4
  · unfold sqrt_floor
    rw [if_pos h4]
    by_cases h0 : n = 0
    · subst h0
      simp [Nat.sqrt]
    · rw [if_neg h0]
      have h1 : 1 ≤ Nat.sqrt n := Nat.le_sqrt.mpr (by omega)
      have h2 : Nat.sqrt n < 2 := Nat.sqrt_lt.mpr (by omega)
      omega
  · unfold sqrt_floor
    rw [if_neg h4]
    exact sqrtNewtonMain_eq_sqrt n (by omega)

/-- The statement of the spec for `sqrt_floor`:
`sqrt_floor(n)^2 <= n < (sqrt_floor(n)+1)^2`. -/
theorem sqrt_floor_spec (n : Nat) :
    sqrt_floor n * sqrt_floor n ≤ n ∧ n < (sqrt_floor n + 1) * (sqrt_floor n + 1) := by
  rw [sqrt_floor_eq_sqrt]
  exact ⟨Nat.sqrt_le n, Nat.lt_succ_sqrt n⟩

end Intalg

namespace Intalg

/-! ## root_floor -/

/-- Specification predicate for `root_floor`: the returned pair `(r, e)`
satisfies `r^k <= n < (r+1)^k` and `e` iff `r^k == n`. -/
def RootSpec (n k : Nat) (p : Nat × Bool) : Prop :=
  p.1 ^ k ≤ n ∧ n < (p.1 + 1) ^ k ∧ (p.2 = true ↔ p.1 ^ k = n)

/-- The final `while high > low + 1` bisection loop of `root_floor`.  The
interval width shrinks every iteration, so any fuel `>= high` suffices. -/
def rootBisect : Nat → Nat → Nat → Nat → Nat → Nat × Bool
  | 0, _, _, low, _ => (low, false)
  | fuel + 1, n, k, low, high =>
    if low + 1 < high then
      let mid := (low + high) / 2
      if mid ^ k < n then rootBisect fuel n k mid high
      else if n < mid ^ k then rootBisect fuel n k low mid
      else (mid, true)
    else (low, false)

/-- The `while True` Newton narrowing loop of the `k >= 3` branch of
`root_floor`.  Each continuing iteration strictly decreases `|x - y|`, so the
fuel only needs to exceed the initial `|x - y|`; on the break condition
`abs(z - y) >= abs(x - y)` the source adjusts `high` (when
`y == z and high > z + 1 and (z + 1) ** k > n`) and falls through to the
bisection loop. -/
def rootNewton : Nat → Nat → Nat → Nat → Nat → Nat → Nat → Nat × Bool
  | 0, n, k, low, high, _, _ => rootBisect high n k low high
  | fuel + 1, n, k, low, high, x, y =>
    let k1 := k - 1
    let z := (k1 * y + n / y ^ k1) / k
    if z ^ k < n then
      let low2 := if low < z then z else low
      if Nat.dist x y ≤ Nat.dist z y then
        let high2 := if y = z ∧ z + 1 < high ∧ n < (z + 1) ^ k then z + 1 else high
        rootBisect high2 n k low2 high2
      else rootNewton fuel n k low2 high y z
    else if n < z ^ k then
      let high2 := if z < high then z else high
      if Nat.dist x y ≤ Nat.dist z y then
        let high3 := if y = z ∧ z + 1 < high2 ∧ n < (z + 1) ^ k then z + 1 else high2
        rootBisect high3 n k low high3
      else rootNewton fuel n k low high2 y z
    else (z, true)

/-- `root_floor(n, k)` from src/intalg.py.  `none` is the `ValueError` raised
for `k <= 0` (negative `n`, the other `ValueError`, is excluded by the `Nat`
input type). -/
def root_floor (n k : Nat) : Option (Nat × Bool) :=
  if k = 0 then none
  else if k = 1 ∨ n ≤ 1 then some (n, true)
  else if k = 2 then
    let v := sqrtNewtonMain n
    some (v, v * v == n)
  else if n >>> k = 0 then some (1, false)
  else
    let c := bit_count n
    let b := (c - 1) / k
    let low := if 1 < b then 1 <<< b else 2
    let high := if 1 < b then 2 <<< b else 4 - (if c ≤ 4 then 1 else 0)
    let k1 := k - 1
    let y0 := (k1 * low + n / low ^ k1) / k
    let y := if y0 < low ∨ high ≤ y0 then (low + high) / 2 else y0
    some (rootNewton (high + 1) n k low high low y)

theorem rootBisect_correct : ∀ fuel n k low high, 1 ≤ k → low ^ k < n →
    n < high ^ k → high ≤ low + fuel →
    RootSpec n k (rootBisect fuel n k low high) := by
  intro fuel
  induction fuel with
  | zero =>
    intro n k low high hk hlow hhigh hfuel
    have hlh : low < high :=
      (Nat.pow_lt_pow_iff_left (by omega)).mp (lt_trans hlow hhigh)
    omega
  | succ fuel ih =>
    intro n k low high hk hlow hhigh hfuel
    have hlh : low < high :=
      (Nat.pow_lt_pow_iff_left (by omega)).mp (lt_trans hlow hhigh)
    by_cases hc : low + 1 < high
    · have hmidlo : low < (low + high) / 2 := by omega
      have hmidhi : (low + high) / 2 < high := by omega
      rcases lt_trichotomy (((low + high) / 2) ^ k) n with hlt | heq | hgt
      · rw [rootBisect, if_pos hc, if_pos hlt]
        exact ih n k _ high hk hlt hhigh (by omega)
      · rw [rootBisect, if_pos hc, if_neg (by omega), if_neg (by omega)]
        refine ⟨le_of_eq heq, ?_, by simp [heq]⟩
        calc n = ((low + high) / 2) ^ k := heq.symm
          _ < ((low + high) / 2 + 1) ^ k :=
            Nat.pow_lt_pow_left (by omega) (by omega)
      · rw [rootBisect, if_pos hc, if_neg (by omega), if_pos hgt]
        exact ih n k low _ hk hlow hgt (by omega)
    · rw [rootBisect, if_neg hc]
      have hh1 : high = low + 1 := by omega
      refine ⟨le_of_lt hlow, ?_, ?_⟩
      · rw [← hh1]
        exact hhigh
      · simp only [Prod.snd]
        constructor
        · intro h
          exact absurd h (by simp)
        · intro h
          omega

theorem rootZ_pos (n k y : Nat) (hk : 3 ≤ k) (hn : 1 ≤ n) (hy : 1 ≤ y) :
    1 ≤ ((k - 1) * y + n / y ^ (k - 1)) / k := by
  rw [Nat.le_div_iff_mul_le (by omega : 0 < k), one_mul]
  rcases eq_or_lt_of_le hy with h1 | h2
  · rw [← h1]
    simp only [one_pow, Nat.div_one, mul_one]
    omega
  · have h3 : k ≤ (k - 1) * y := by
      have : (k - 1) * 2 ≤ (k - 1) * y := Nat.mul_le_mul_left _ (by omega)
      omega
    exact le_trans h3 (Nat.le_add_right _ _)

theorem rootNewton_correct : ∀ fuel n k low high x y, 3 ≤ k → 2 ≤ low →
    low ^ k < n → n < high ^ k → 1 ≤ y → Nat.dist x y < fuel →
    RootSpec n k (rootNewton fuel n k low high x y) := by
  intro fuel
  induction fuel with
  | zero =>
    intro n k low high x y _ _ _ _ _ hfuel
    omega
  | succ fuel ih =>
    intro n k low high x y hk hlow2 hlow hhigh hy hfuel
    have hn1 : 1 ≤ n := by
      have : 0 < low ^ k := Nat.pos_pow_of_pos k (by omega)
      omega
    have hz1 : 1 ≤ ((k - 1) * y + n / y ^ (k - 1)) / k := rootZ_pos n k y hk hn1 hy
    set z := ((k - 1) * y + n / y ^ (k - 1)) / k with hzdef
    rcases lt_trichotomy (z ^ k) n with hlt | heq | hgt
    · -- mr < 0: maybe raise low to z
      have hlow2' : (if low < z then z else low) ^ k < n := by
        split
        · exact hlt
        · exact hlow
      have hlow2'' : 2 ≤ (if low < z then z else low) := by
        split <;> omega
      by_cases hbr : Nat.dist x y ≤ Nat.dist z y
      · rw [rootNewton]
        simp only [← hzdef, if_pos hlt, if_pos hbr]
        set high2 := if y = z ∧ z + 1 < high ∧ n < (z + 1) ^ k then z + 1 else high
          with hh2def
        have hhigh2 : n < high2 ^ k := by
          rw [hh2def]
          split
          · next hcond => exact hcond.2.2
          · exact hhigh
        exact rootBisect_correct high2 n k _ high2 (by omega) hlow2' hhigh2
          (Nat.le_add_left _ _)
      · rw [rootNewton]
        simp only [← hzdef, if_pos hlt, if_neg hbr]
        refine ih n k _ high y z hk hlow2'' hlow2' hhigh hz1 ?_
        have h1 : Nat.dist z y < Nat.dist x y := by omega
        rw [Nat.dist_comm y z]
        omega
    · -- mr == 0: exact root found
      rw [rootNewton]
      simp only [← hzdef, if_neg (by omega : ¬ z ^ k < n),
        if_neg (by omega : ¬ n < z ^ k)]
      refine ⟨le_of_eq heq, ?_, by simp [heq]⟩
      calc n = z ^ k := heq.symm
        _ < (z + 1) ^ k := Nat.pow_lt_pow_left (by omega) (by omega)
    · -- mr > 0: maybe lower high to z
      have hhigh2' : n < (if z < high then z else high) ^ k := by
        split
        · exact hgt
        · exact hhigh
      by_cases hbr : Nat.dist x y ≤ Nat.dist z y
      · rw [rootNewton]
        simp only [← hzdef, if_neg (by omega : ¬ z ^ k < n), if_pos hgt, if_pos hbr]
        set high2 := if z < high then z else high with hh2def
        set high3 := if y = z ∧ z + 1 < high2 ∧ n < (z + 1) ^ k then z + 1 else high2
          with hh3def
        have hhigh3 : n < high3 ^ k := by
          rw [hh3def]
          split
          · next hcond => exact hcond.2.2
          · exact hhigh2'
        exact rootBisect_correct high3 n k low high3 (by omega) hlow hhigh3
          (Nat.le_add_left _ _)
      · rw [rootNewton]
        simp only [← hzdef, if_neg (by omega : ¬ z ^ k < n), if_pos hgt, if_neg hbr]
        refine ih n k low _ y z hk hlow2 hlow hhigh2' hz1 ?_
        have h1 : Nat.dist z y < Nat.dist x y := by omega
        rw [Nat.dist_comm y z]
        omega

end Intalg

namespace Intalg

theorem root_floor_main_facts (n k : Nat) (hk : 3 ≤ k) (hn : 2 ^ k ≤ n) :
    2 ≤ (if 1 < (bit_count n - 1) / k then 1 <<< ((bit_count n - 1) / k) else 2) ∧
    (if 1 < (bit_count n - 1) / k then 1 <<< ((bit_count n - 1) / k) else 2) ^ k ≤ n ∧
    n < (if 1 < (bit_count n - 1) / k then 2 <<< ((bit_count n - 1) / k)
         else 4 - (if bit_count n ≤ 4 then 1 else 0)) ^ k := by
  have hn1 : 1 ≤ n := le_trans (Nat.one_le_two_pow) hn
  obtain ⟨hbc1, hbc2, hbc3⟩ := bit_count_spec n hn1
  set c := bit_count n with hcdef
  set b := (c - 1) / k with hbdef
  have hlow : (1 : Nat) <<< b = 2 ^ b := by rw [Nat.shiftLeft_eq, one_mul]
  have hhigh : (2 : Nat) <<< b = 2 ^ (b + 1) := by
    rw [Nat.shiftLeft_eq, pow_succ]
    ring
  by_cases hb : 1 < b
  · refine ⟨?_, ?_, ?_⟩
    · rw [if_pos hb, hlow]
      calc 2 = 2 ^ 1 := (pow_one 2).symm
        _ ≤ 2 ^ b := Nat.pow_le_pow_right (by omega) (by omega)
    · rw [if_pos hb, hlow, ← pow_mul]
      have h1 : b * k ≤ c - 1 := by
        rw [hbdef]
        exact Nat.div_mul_le_self _ _
      calc 2 ^ (b * k) ≤ 2 ^ (c - 1) := Nat.pow_le_pow_right (by omega) h1
        _ ≤ n := hbc1
    · rw [if_pos hb, hhigh, ← pow_mul]
      have h2 : c ≤ (b + 1) * k := by
        have hd := Nat.div_add_mod (c - 1) k
        have hm : (c - 1) % k < k := Nat.mod_lt _ (by omega)
        have he : (b + 1) * k = k * ((c - 1) / k) + k := by
          rw [hbdef]
          ring
        rw [he]
        generalize hK : k * ((c - 1) / k) = K at hd ⊢
        omega
      calc n < 2 ^ c := hbc2
        _ ≤ 2 ^ ((b + 1) * k) := Nat.pow_le_pow_right (by omega) h2
  · have hc2k : c - 1 < 2 * k := by
      have hblt : b < 2 := by omega
      rw [hbdef] at hblt
      have := (Nat.div_lt_iff_lt_mul (by omega : 0 < k)).mp hblt
      omega
    refine ⟨?_, ?_, ?_⟩
    · rw [if_neg hb]
    · rw [if_neg hb]
      exact hn
    · rw [if_neg hb]
      by_cases hc4 : c ≤ 4
      · rw [if_pos hc4]
        have h15 : n < 16 := by
          calc n < 2 ^ c := hbc2
            _ ≤ 2 ^ 4 := Nat.pow_le_pow_right (by omega) hc4
            _ = 16 := by norm_num
        have h27 : (27 : Nat) ≤ 3 ^ k := by
          calc (27 : Nat) = 3 ^ 3 := by norm_num
            _ ≤ 3 ^ k := Nat.pow_le_pow_right (by omega) hk
        have h41 : (4 : Nat) - 1 = 3 := rfl
        rw [h41]
        omega
      · rw [if_neg hc4]
        have h40 : (4 : Nat) - 0 = 2 ^ 2 := by norm_num
        rw [h40, ← pow_mul]
        calc n < 2 ^ c := hbc2
          _ ≤ 2 ^ (2 * k) := Nat.pow_le_pow_right (by omega) (by omega)

theorem root_floor_spec (n k : Nat) (hk : 1 ≤ k) :
    ∃ p, root_floor n k = some p ∧ RootSpec n k p := by
  by_cases hk1 : k = 1
  · subst hk1
    refine ⟨(n, true), ?_, ?_⟩
    · unfold root_floor
      rw [if_neg (by omega), if_pos (Or.inl rfl)]
    · exact ⟨by simp, by simp, by simp⟩
  · by_cases hn1 : n ≤ 1
    · refine ⟨(n, true), ?_, ?_⟩
      · unfold root_floor
        rw [if_neg (by omega), if_pos (Or.inr hn1)]
      · rcases (by omega : n = 0 ∨ n = 1) with h | h <;> subst h
        · exact ⟨by simp [zero_pow (by omega : k ≠ 0)],
            by simp, by simp [zero_pow (by omega : k ≠ 0)]⟩
        · refine ⟨by simp, ?_, by simp⟩
          have h := one_lt_pow₀ (by norm_num : (1 : ℕ) < 2) (by omega : k ≠ 0)
          simpa using h
    · by_cases hk2 : k = 2
      · subst hk2
        by_cases hn4 : n < 4
        · rcases (by omega : n = 2 ∨ n = 3) with h | h <;> subst h
          · exact ⟨(1, false), by decide, by unfold RootSpec; decide⟩
          · exact ⟨(1, false), by decide, by unfold RootSpec; decide⟩
        · have hv : sqrtNewtonMain n = Nat.sqrt n :=
            sqrtNewtonMain_eq_sqrt n (by omega)
          refine ⟨(sqrtNewtonMain n, sqrtNewtonMain n * sqrtNewtonMain n == n),
            ?_, ?_⟩
          · unfold root_floor
            rw [if_neg (by omega), if_neg (by omega), if_pos rfl]
          · rw [hv]
            refine ⟨?_, ?_, ?_⟩
            · rw [pow_two]
              exact Nat.sqrt_le n
            · rw [pow_two]
              exact Nat.lt_succ_sqrt n
            · rw [pow_two, beq_iff_eq]
      · have hk3 : 3 ≤ k := by omega
        by_cases hsh : n >>> k = 0
        · refine ⟨(1, false), ?_, ?_⟩
          · unfold root_floor
            rw [if_neg (by omega), if_neg (by omega), if_neg hk2, if_pos hsh]
          · have hlt : n < 2 ^ k := by
              rw [Nat.shiftRight_eq_div_pow] at hsh
              by_contra hge
              rw [Nat.div_eq_zero_iff (Nat.pos_pow_of_pos k (by omega))] at hsh
              omega
            refine ⟨by simp; omega, ?_, ?_⟩
            · simpa using hlt
            · simp only [one_pow]
              constructor
              · intro h
                exact absurd h (by simp)
              · intro h
                omega
        · have hn2k : 2 ^ k ≤ n := by
            rw [Nat.shiftRight_eq_div_pow] at hsh
            by_contra hge
            exact hsh (Nat.div_eq_of_lt (by omega))
          obtain ⟨hlow2, hlowk, hhighk⟩ := root_floor_main_facts n k hk3 hn2k
          set c := bit_count n with hcdef
          set b := (c - 1) / k with hbdef
          set low := if 1 < b then 1 <<< b else 2 with hlowdef
          set high := if 1 < b then 2 <<< b else 4 - (if c ≤ 4 then 1 else 0)
            with hhighdef
          have hlh : low < high := by
            rcases eq_or_lt_of_le hlowk with he | hl
            · exact (Nat.pow_lt_pow_iff_left (by omega : k ≠ 0)).mp
                (he ▸ hhighk)
            · exact (Nat.pow_lt_pow_iff_left (by omega : k ≠ 0)).mp
                (lt_trans hl hhighk)
          set y0 := (k - 1) * low + n / low ^ (k - 1) with hy0def
          set y := if y0 / k < low ∨ high ≤ y0 / k then (low + high) / 2
            else y0 / k with hydef
          have hyrange : low ≤ y ∧ y < high := by
            rw [hydef]
            split
            · omega
            · next hcond =>
              push_neg at hcond
              exact hcond
          have hunf : root_floor n k =
              some (rootNewton (high + 1) n k low high low y) := by
            unfold root_floor
            rw [if_neg (by omega), if_neg (by omega), if_neg hk2, if_neg hsh]
          rcases eq_or_lt_of_le hlowk with hexact | hstrict
          · -- low ^ k == n: the first Newton iterate is exactly low and the
            -- loop returns (low, true) immediately
            have hdiveq : n / low ^ (k - 1) = low := by
              rw [← hexact]
              have hsp : low ^ k = low ^ (k - 1) * low := by
                rw [← pow_succ]
                congr 1
                omega
              rw [hsp, Nat.mul_div_cancel_left _ (Nat.pos_pow_of_pos _ (by omega))]
            have hmul : (k - 1) * low + low = k * low := by
              cases k with
              | zero => omega
              | succ k' =>
                simp only [Nat.succ_sub_one]
                ring
            have hy0eq : y0 / k = low := by
              rw [hy0def, hdiveq, hmul, Nat.mul_div_cancel_left _ (by omega : 0 < k)]
            have hyeq : y = low := by
              rw [hydef, hy0eq, if_neg (by omega)]
            refine ⟨(low, true), ?_, ?_⟩
            · rw [hunf, hyeq]
              rw [rootNewton]
              simp only [hdiveq, hmul, Nat.mul_div_cancel_left _ (by omega : 0 < k)]
              rw [if_neg (by omega), if_neg (by omega)]
            · exact ⟨le_of_eq hexact, by
                calc n = low ^ k := hexact.symm
                  _ < (low + 1) ^ k := Nat.pow_lt_pow_left (by omega) (by omega),
                by simp [hexact]⟩
          · refine ⟨rootNewton (high + 1) n k low high low y, hunf, ?_⟩
            have hdist : Nat.dist low y < high + 1 := by
              have h1 : Nat.dist low y = y - low := Nat.dist_eq_sub_of_le hyrange.1
              omega
            exact rootNewton_correct (high + 1) n k low high low y hk3 hlow2
              hstrict hhighk (by omega) hdist

end Intalg

namespace Intalg

/-! ## primes_upto: the odd-only sieve of Eratosthenes

The source keeps a byte array `s` of size `n >> 1` indexed by `j`, where
position `j` stands for the odd number `2*j + 1` (position 0 stands for 1).
The embedding represents the array as a function `Nat → Bool` and the
extended-slice assignment `s[i*i >> 1 : : i] = a0 * count` semantically: all
positions of the arithmetic progression with start `i*i >> 1` and stride `i`
below the array size are cleared (the source computes `count` to be exactly
the number of those positions, as Python 2 extended-slice assignment
requires). -/

/-- One slice assignment `s[i*i >> 1 : : i] = zeros` of the sieve. -/
def sieveMark (size i : Nat) (s : Nat → Bool) : Nat → Bool :=
  fun j =>
    if i * i / 2 ≤ j ∧ j < size ∧ (j - i * i / 2) % i = 0 then false else s j

/-- The sieve loop `for i in xrange(3, sqrt_floor(n) + 1, 2)` with its
`if s[i >> 1]` guard. -/
def sieveLoop (size : Nat) (odds : List Nat) (s : Nat → Bool) : Nat → Bool :=
  odds.foldl (fun s i => if s (i / 2) then sieveMark size i s else s) s

/-- The sieve branch of `primes_upto(m)` from src/intalg.py (reached when
`m >= 2` and the prime cache does not cover `m`): `n += 1`; boolean array of
size `n >> 1` over odd numbers; clear multiples of each surviving odd `i`
from 3 to `sqrt_floor(n)` starting at `i*i`; collect `(j << 1) | 1` for the
surviving positions; replace the leading 1 by 2. -/
def primesUptoSieve (m : Nat) : List Nat :=
  let n := m + 1
  let size := n / 2
  let odds := List.range' 3 ((sqrt_floor n - 1) / 2) 2
  let s := sieveLoop size odds (fun _ => true)
  let out := ((List.range size).filter (fun j => s j)).map (fun j => 2 * j + 1)
  match out with
  | [] => []
  | _ :: t => 2 :: t

/-- A position `j` cleared by the sieve always carries an odd divisor witness
of the odd number `2*j + 1`. -/
def OddCompWitness (j : Nat) : Prop :=
  ∃ i, 3 ≤ i ∧ i % 2 = 1 ∧ i ∣ (2 * j + 1) ∧ i * i ≤ 2 * j + 1

theorem sieveLoop_monotone (size : Nat) : ∀ odds s j, s j = false →
    sieveLoop size odds s j = false := by
  intro odds
  induction odds with
  | nil => intro s j h; exact h
  | cons i t ih =>
    intro s j h
    unfold sieveLoop
    rw [List.foldl_cons]
    apply ih
    split
    · unfold sieveMark
      split
      · rfl
      · exact h
    · exact h

theorem sieveMark_witness (size i j : Nat) (hi3 : 3 ≤ i) (hiodd : i % 2 = 1)
    (hhit : i * i / 2 ≤ j ∧ j < size ∧ (j - i * i / 2) % i = 0) :
    OddCompWitness j := by
  obtain ⟨hstart, _, hmod⟩ := hhit
  obtain ⟨t, ht⟩ := Nat.dvd_of_mod_eq_zero hmod
  have hiisq : i * i % 2 = 1 := by
    rw [Nat.mul_mod, hiodd]
  have hj : 2 * j + 1 = i * i + 2 * (i * t) := by
    have hd := Nat.div_add_mod (i * i) 2
    have hj0 : j = i * i / 2 + i * t := by omega
    omega
  refine ⟨i, hi3, hiodd, ⟨i + 2 * t, ?_⟩, by omega⟩
  rw [hj]
  ring

theorem sieveLoop_sound (size : Nat) : ∀ odds : List Nat,
    (∀ i ∈ odds, 3 ≤ i ∧ i % 2 = 1) →
    ∀ s : Nat → Bool, (∀ j, s j = false → OddCompWitness j) →
    ∀ j, sieveLoop size odds s j = false → OddCompWitness j := by
  intro odds
  induction odds with
  | nil => intro _ s hs j h; exact hs j h
  | cons i t ih =>
    intro hmem s hs j h
    unfold sieveLoop at h
    rw [List.foldl_cons] at h
    refine ih (fun i' hi' => hmem i' (List.mem_cons_of_mem _ hi')) _ ?_ j h
    intro j' hj'
    obtain ⟨hi3, hiodd⟩ := hmem i (List.mem_cons_self _ _)
    by_cases hg : s (i / 2) = true
    · rw [if_pos hg] at hj'
      unfold sieveMark at hj'
      by_cases hhit : i * i / 2 ≤ j' ∧ j' < size ∧ (j' - i * i / 2) % i = 0
      · exact sieveMark_witness size i j' hi3 hiodd hhit
      · rw [if_neg hhit] at hj'
        exact hs j' hj'
    · rw [if_neg hg] at hj'
      exact hs j' hj'

theorem prime_no_witness (j : Nat) (hp : Nat.Prime (2 * j + 1)) :
    ¬ OddCompWitness j := by
  rintro ⟨i, hi3, _, hdvd, hsq⟩
  rcases (Nat.Prime.eq_one_or_self_of_dvd hp i hdvd) with h1 | hself
  · omega
  · subst hself
    nlinarith

theorem zero_no_witness : ¬ OddCompWitness 0 := by
  rintro ⟨i, hi3, _, hdvd, _⟩
  have := Nat.le_of_dvd (by omega) hdvd
  omega

theorem sieveLoop_marks (size : Nat) : ∀ odds : List Nat,
    (∀ i ∈ odds, 3 ≤ i ∧ i % 2 = 1) →
    ∀ s : Nat → Bool, (∀ j, s j = false → OddCompWitness j) →
    ∀ p ∈ odds, Nat.Prime p →
    ∀ j, (p * p / 2 ≤ j ∧ j < size ∧ (j - p * p / 2) % p = 0) →
    sieveLoop size odds s j = false := by
  intro odds
  induction odds with
  | nil => intro _ _ _ p hp; exact absurd hp (List.not_mem_nil p)
  | cons i t ih =>
    intro hmem s hs p hp hprime j hhit
    obtain ⟨hi3, hiodd⟩ := hmem i (List.mem_cons_self _ _)
    rcases List.mem_cons.mp hp with hpi | hpt
    · -- the head of the list is p itself: the guard must be true
      subst hpi
      have hguard : s (p / 2) = true := by
        by_contra hg
        have hw := hs (p / 2) (by
          cases h : s (p / 2)
          · rfl
          · exact absurd h hg)
        have hpodd : 2 * (p / 2) + 1 = p := by omega
        exact prime_no_witness (p / 2) (by rw [hpodd]; exact hprime) hw
      unfold sieveLoop
      rw [List.foldl_cons, if_pos hguard]
      apply sieveLoop_monotone
      unfold sieveMark
      rw [if_pos hhit]
    · -- p is in the tail; one step preserves the soundness invariant
      unfold sieveLoop
      rw [List.foldl_cons]
      refine ih (fun i' hi' => hmem i' (List.mem_cons_of_mem _ hi')) _ ?_ p hpt
        hprime j hhit
      intro j' hj'
      by_cases hg : s (i / 2) = true
      · rw [if_pos hg] at hj'
        unfold sieveMark at hj'
        by_cases hhit' : i * i / 2 ≤ j' ∧ j' < size ∧ (j' - i * i / 2) % i = 0
        · exact sieveMark_witness size i j' hi3 hiodd hhit'
        · rw [if_neg hhit'] at hj'
          exact hs j' hj'
      · rw [if_neg hg] at hj'
        exact hs j' hj'

end Intalg

namespace Intalg

theorem mem_sieve_odds (r i : Nat) :
    i ∈ List.range' 3 ((r - 1) / 2) 2 ↔ 3 ≤ i ∧ i ≤ r ∧ i % 2 = 1 := by
  rw [List.mem_range']
  constructor
  · rintro ⟨t, ht, rfl⟩
    omega
  · rintro ⟨h3, hr, hodd⟩
    exact ⟨(i - 3) / 2, by omega, by omega⟩

theorem sieveLoop_char (m : Nat) (j : Nat) (hj : j < (m + 1) / 2) :
    sieveLoop ((m + 1) / 2)
        (List.range' 3 ((sqrt_floor (m + 1) - 1) / 2) 2) (fun _ => true) j =
      true ↔ (j = 0 ∨ Nat.Prime (2 * j + 1)) := by
  rw [sqrt_floor_eq_sqrt]
  set size := (m + 1) / 2 with hsize
  set r := Nat.sqrt (m + 1) with hr
  set odds := List.range' 3 ((r - 1) / 2) 2 with hodds
  have hmem : ∀ i ∈ odds, 3 ≤ i ∧ i % 2 = 1 := by
    intro i hi
    have h := (mem_sieve_odds r i).mp hi
    exact ⟨h.1, h.2.2⟩
  have hs0 : ∀ j' : Nat, (fun _ : Nat => true) j' = false → OddCompWitness j' := by
    intro j' h
    simp at h
  constructor
  · intro htrue
    by_contra hnot
    push_neg at hnot
    obtain ⟨hj0, hnp⟩ := hnot
    -- 2*j+1 is an odd composite in range; its least prime factor marks it
    set x := 2 * j + 1 with hx
    have hx3 : 3 ≤ x := by omega
    have hxodd : x % 2 = 1 := by omega
    have hxm : x ≤ m := by omega
    have hnpx : ¬ Nat.Prime x := hnp
    set p := Nat.minFac x with hp
    have hpprime : Nat.Prime p := Nat.minFac_prime (by omega)
    have hpdvd : p ∣ x := Nat.minFac_dvd x
    have hpodd : p % 2 = 1 := by
      rcases hpprime.eq_two_or_odd with h2 | hodd
      · exfalso
        rw [h2] at hpdvd
        omega
      · exact hodd
    have hp3 : 3 ≤ p := by
      have := hpprime.two_le
      omega
    have hpsq : p * p ≤ x := by
      have := Nat.minFac_sq_le_self (by omega : 0 < x) hnpx
      rw [pow_two] at this
      exact this
    have hpr : p ≤ r := by
      rw [hr]
      exact Nat.le_sqrt.mpr (by omega)
    have hpin : p ∈ odds := (mem_sieve_odds r p).mpr ⟨hp3, hpr, hpodd⟩
    -- build the hit
    set w := x / p with hw
    have hfact : x = p * w := by
      rw [hw]
      exact (Nat.mul_div_cancel' hpdvd).symm
    have hwge : p ≤ w := by
      have hppos : 0 < p := by omega
      have := hpsq
      rw [hfact] at this
      exact Nat.le_of_mul_le_mul_left this hppos
    have hwodd : w % 2 = 1 := by
      have h1 : x % 2 = (p % 2 * (w % 2)) % 2 := by
        rw [hfact, Nat.mul_mod]
      rw [hpodd] at h1
      omega
    have hexp : 2 * j + 1 = p * p + 2 * (p * ((w - p) / 2)) := by
      have hwp : w = p + 2 * ((w - p) / 2) := by omega
      calc 2 * j + 1 = p * w := hfact
        _ = p * (p + 2 * ((w - p) / 2)) := by rw [← hwp]
        _ = p * p + 2 * (p * ((w - p) / 2)) := by ring
    have hppodd : p * p % 2 = 1 := by
      rw [Nat.mul_mod, hpodd]
    have hhit : p * p / 2 ≤ j ∧ j < size ∧ (j - p * p / 2) % p = 0 := by
      have hd := Nat.div_add_mod (p * p) 2
      refine ⟨by omega, hj, ?_⟩
      have hjsub : j - p * p / 2 = p * ((w - p) / 2) := by omega
      rw [hjsub]
      exact Nat.mul_mod_right p _
    have := sieveLoop_marks size odds hmem _ hs0 p hpin hpprime j hhit
    rw [htrue] at this
    exact absurd this (by simp)
  · intro hdis
    by_contra hfalse
    have hf : sieveLoop size odds (fun _ => true) j = false := by
      cases h : sieveLoop size odds (fun _ => true) j
      · rfl
      · exact absurd h hfalse
    have hw := sieveLoop_sound size odds hmem _ hs0 j hf
    rcases hdis with h0 | hp
    · subst h0
      exact zero_no_witness hw
    · exact prime_no_witness j hp hw

end Intalg

namespace Intalg

/-- The list of primes up to `m` in ascending order, as a specification:
the filter of the primality predicate over `0, ..., m`. -/
def primesList (m : Nat) : List Nat :=
  (List.range (m + 1)).filter (fun p => decide (Nat.Prime p))

theorem primesList_sorted (m : Nat) :
    List.Pairwise (· < ·) (primesList m) :=
  (List.pairwise_lt_range (m + 1)).filter _

theorem mem_primesList (m x : Nat) :
    x ∈ primesList m ↔ Nat.Prime x ∧ x ≤ m := by
  unfold primesList
  rw [List.mem_filter, List.mem_range]
  rw [decide_eq_true_eq]
  constructor
  · rintro ⟨h1, h2⟩
    exact ⟨h2, by omega⟩
  · rintro ⟨h1, h2⟩
    exact ⟨by omega, h1⟩

theorem primesUptoSieve_eq (m : Nat) (hm : 2 ≤ m) :
    primesUptoSieve m = primesList m := by
  set size := (m + 1) / 2 with hsizedef
  set odds := List.range' 3 ((sqrt_floor (m + 1) - 1) / 2) 2 with hoddsdef
  set sfun := sieveLoop size odds (fun _ => true) with hsfun
  have hchar : ∀ j, j < size → (sfun j = true ↔ (j = 0 ∨ Nat.Prime (2 * j + 1))) :=
    fun j hj => sieveLoop_char m j hj
  have hsz1 : 1 ≤ size := by omega
  have hs0 : sfun 0 = true := (hchar 0 (by omega)).mpr (Or.inl rfl)
  have hsz : size = size - 1 + 1 := by omega
  have hsplit : List.range size = 0 :: List.map Nat.succ (List.range (size - 1)) := by
    conv_lhs => rw [hsz, List.range_succ_eq_map]
  set T := (List.filter (fun j => sfun j) (List.map Nat.succ (List.range (size - 1)))).map
    (fun j => 2 * j + 1) with hT
  have hPS : primesUptoSieve m = 2 :: T := by
    unfold primesUptoSieve
    dsimp only
    rw [← hsizedef, ← hoddsdef, ← hsfun, hsplit, List.filter_cons_of_pos hs0,
      List.map_cons]
  rw [hPS]
  have hmemT : ∀ x, x ∈ T ↔ (Nat.Prime x ∧ x % 2 = 1 ∧ 3 ≤ x ∧ x ≤ m) := by
    intro x
    rw [hT, List.mem_map]
    constructor
    · rintro ⟨j, hjmem, rfl⟩
      rw [List.mem_filter, List.mem_map] at hjmem
      obtain ⟨⟨j', hj', rfl⟩, hsj⟩ := hjmem
      rw [List.mem_range] at hj'
      have hjsz : Nat.succ j' < size := by omega
      have hp := (hchar _ hjsz).mp hsj
      rcases hp with h0 | hp
      · omega
      · exact ⟨hp, by omega, by omega, by omega⟩
    · rintro ⟨hp, hodd, h3, hxm⟩
      refine ⟨x / 2, ?_, by omega⟩
      rw [List.mem_filter, List.mem_map]
      have hjsz : x / 2 < size := by omega
      refine ⟨⟨x / 2 - 1, by rw [List.mem_range]; omega, by omega⟩, ?_⟩
      refine (hchar _ hjsz).mpr (Or.inr ?_)
      have hx : 2 * (x / 2) + 1 = x := by omega
      rw [hx]
      exact hp
  have hTsorted : List.Pairwise (· < ·) T := by
    rw [hT]
    have h1 : List.Pairwise (· < ·) (List.range (size - 1)) :=
      List.pairwise_lt_range _
    have h2 : List.Pairwise (· < ·) (List.map Nat.succ (List.range (size - 1))) :=
      h1.map _ (fun a b h => by omega)
    have h3 := h2.filter (fun j => sfun j)
    exact h3.map _ (fun a b h => by omega)
  have hLsorted : List.Pairwise (· < ·) (2 :: T) := by
    rw [List.pairwise_cons]
    refine ⟨fun x hx => ?_, hTsorted⟩
    have := (hmemT x).mp hx
    omega
  have hmemL : ∀ x, x ∈ 2 :: T ↔ (Nat.Prime x ∧ x ≤ m) := by
    intro x
    rw [List.mem_cons, hmemT]
    constructor
    · rintro (rfl | ⟨hp, _, _, hxm⟩)
      · exact ⟨Nat.prime_two, hm⟩
      · exact ⟨hp, hxm⟩
    · rintro ⟨hp, hxm⟩
      rcases hp.eq_two_or_odd with h2 | hodd
      · exact Or.inl h2
      · right
        exact ⟨hp, hodd, by have := hp.two_le; omega, hxm⟩
  have hnodL : (2 :: T).Nodup := hLsorted.imp (fun h => Nat.ne_of_lt h)
  have hnodR : (primesList m).Nodup :=
    (primesList_sorted m).imp (fun h => Nat.ne_of_lt h)
  have hperm : (2 :: T).Perm (primesList m) := by
    rw [List.perm_ext_iff_of_nodup hnodL hnodR]
    intro x
    rw [hmemL, mem_primesList]
  exact List.eq_of_perm_of_sorted hperm hLsorted (primesList_sorted m)

end Intalg

namespace Intalg

/-! ## The prime cache and primes_upto -/

/-- The process-wide prime-cache globals of src/intalg.py — `_prime_cache`
(a list of primes) and `_prime_cache_limit_ary[0]` (the validity limit) — as
an explicit state value. -/
structure PCache where
  cache : List Nat
  limit : Int
  deriving DecidableEq, Repr

/-- The state at process start (also the state after `clear_prime_cache()`):
empty cache, limit 1. -/
def initState : PCache := ⟨[], 1⟩

/-- `bisect.bisect_right(l, x)` on a sorted list: the length of the maximal
prefix of elements `<= x`. -/
def bisect_right (l : List Nat) (x : Int) : Nat :=
  (l.takeWhile (fun (p : Nat) => decide ((p : Int) ≤ x))).length

/-- `bisect.bisect_left(l, x)` on a sorted list: the length of the maximal
prefix of elements `< x`. -/
def bisect_left (l : List Nat) (x : Nat) : Nat :=
  (l.takeWhile (fun p => decide (p < x))).length

/-- `primes_upto(n)` from src/intalg.py: for `n <= 1` the empty list; if the
cache covers `n`, the slice `cache[:bisect.bisect_right(cache, n)]`;
otherwise the sieve. -/
def primes_upto (x : Int) (st : PCache) : List Nat :=
  if x ≤ 1 then []
  else if x ≤ st.limit then st.cache.take (bisect_right st.cache x)
  else primesUptoSieve x.toNat

/-- Specification: the ascending list of primes `<= x` (empty for `x <= 1`). -/
def cachePrimes (x : Int) : List Nat :=
  if x ≤ 1 then [] else primesList x.toNat

/-- A non-corrupted prime-cache state: the cached sequence is exactly the
ascending list of primes up to the validity limit, and the limit is at least
its initial value 1. -/
def Valid (st : PCache) : Prop :=
  st.cache = cachePrimes st.limit ∧ 1 ≤ st.limit

theorem sorted_ext (l1 l2 : List Nat) (h1 : List.Pairwise (· < ·) l1)
    (h2 : List.Pairwise (· < ·) l2) (hm : ∀ x, x ∈ l1 ↔ x ∈ l2) : l1 = l2 := by
  have hn1 : l1.Nodup := h1.imp (fun h => Nat.ne_of_lt h)
  have hn2 : l2.Nodup := h2.imp (fun h => Nat.ne_of_lt h)
  exact List.eq_of_perm_of_sorted
    ((List.perm_ext_iff_of_nodup hn1 hn2).mpr hm) h1 h2

theorem takeWhile_eq_filter_of_sorted (P : Nat → Bool)
    (hmono : ∀ a b : Nat, a < b → P b = true → P a = true) :
    ∀ l : List Nat, List.Pairwise (· < ·) l → l.takeWhile P = l.filter P := by
  intro l
  induction l with
  | nil => intro _; rfl
  | cons a t ih =>
    intro hsort
    rw [List.pairwise_cons] at hsort
    cases hPa : P a
    · rw [List.takeWhile_cons_of_neg (by simp [hPa]),
        List.filter_cons_of_neg (by simp [hPa])]
      have hnone : t.filter P = [] := by
        rw [List.filter_eq_nil_iff]
        intro b hb
        intro hPb
        have := hmono a b (hsort.1 b hb) hPb
        rw [hPa] at this
        exact absurd this (by simp)
      rw [hnone]
    · rw [List.takeWhile_cons_of_pos (by simp [hPa]),
        List.filter_cons_of_pos (by simp [hPa]), ih hsort.2]

theorem take_bisect_right_eq (l : List Nat) (x : Int)
    (hsort : List.Pairwise (· < ·) l) :
    l.take (bisect_right l x) = l.filter (fun (p : Nat) => decide ((p : Int) ≤ x)) := by
  unfold bisect_right
  have hpre : l.takeWhile (fun (p : Nat) => decide ((p : Int) ≤ x)) <+: l :=
    List.takeWhile_prefix _
  rw [List.prefix_iff_eq_take] at hpre
  rw [← hpre]
  refine takeWhile_eq_filter_of_sorted _ ?_ l hsort
  intro a b hab hb
  rw [decide_eq_true_eq] at hb ⊢
  omega

theorem primesList_filter_le (L x : Nat) (hx : x ≤ L) :
    (primesList L).filter (fun (p : Nat) => decide ((p : Int) ≤ (x : Int))) =
      primesList x := by
  refine sorted_ext _ _ ((primesList_sorted L).filter _) (primesList_sorted x) ?_
  intro p
  rw [List.mem_filter, mem_primesList, mem_primesList, decide_eq_true_eq]
  constructor
  · rintro ⟨⟨hp, _⟩, hle⟩
    exact ⟨hp, by exact_mod_cast hle⟩
  · rintro ⟨hp, hle⟩
    exact ⟨⟨hp, by omega⟩, by exact_mod_cast hle⟩

theorem primes_upto_valid (st : PCache) (hst : Valid st) (x : Int) :
    primes_upto x st = cachePrimes x := by
  obtain ⟨hcache, hlim⟩ := hst
  unfold primes_upto cachePrimes
  by_cases hx1 : x ≤ 1
  · rw [if_pos hx1, if_pos hx1]
  · rw [if_neg hx1, if_neg hx1]
    by_cases hxl : x ≤ st.limit
    · rw [if_pos hxl, hcache]
      have hlim1 : ¬ st.limit ≤ 1 := by omega
      unfold cachePrimes
      rw [if_neg hlim1]
      have hsort := primesList_sorted st.limit.toNat
      rw [take_bisect_right_eq _ _ hsort]
      have hxx : (x.toNat : Int) = x := Int.toNat_of_nonneg (by omega)
      calc (primesList st.limit.toNat).filter (fun (p : Nat) => decide ((p : Int) ≤ x))
          = (primesList st.limit.toNat).filter
              (fun (p : Nat) => decide ((p : Int) ≤ (x.toNat : Int))) := by rw [hxx]
        _ = primesList x.toNat := primesList_filter_le _ _ (by omega)
    · rw [if_neg hxl]
      exact primesUptoSieve_eq x.toNat (by omega)

theorem mem_cachePrimes (x : Int) (p : Nat) :
    p ∈ cachePrimes x ↔ Nat.Prime p ∧ (p : Int) ≤ x := by
  unfold cachePrimes
  split
  · next hx1 =>
    simp only [List.not_mem_nil, false_iff]
    rintro ⟨hp, hpx⟩
    have := hp.two_le
    omega
  · next hx1 =>
    rw [mem_primesList]
    constructor
    · rintro ⟨hp, hle⟩
      refine ⟨hp, ?_⟩
      omega
    · rintro ⟨hp, hle⟩
      refine ⟨hp, ?_⟩
      omega

theorem cachePrimes_sorted (x : Int) : List.Pairwise (· < ·) (cachePrimes x) := by
  unfold cachePrimes
  split
  · exact List.Pairwise.nil
  · exact primesList_sorted _

end Intalg

namespace Intalg

theorem bisect_left_mem : ∀ (l : List Nat), List.Pairwise (· < ·) l →
    ∀ x : Nat,
    ((bisect_left l x < l.length ∧ l.getD (bisect_left l x) 0 = x) ↔ x ∈ l) := by
  intro l
  induction l with
  | nil =>
    intro _ x
    simp [bisect_left]
  | cons a t ih =>
    intro hsort x
    rw [List.pairwise_cons] at hsort
    by_cases hax : a < x
    · have hstep : bisect_left (a :: t) x = bisect_left t x + 1 := by
        unfold bisect_left
        rw [List.takeWhile_cons_of_pos (by simp [hax]), List.length_cons]
      rw [hstep]
      simp only [List.length_cons, List.getD_cons_succ, List.mem_cons]
      rw [Nat.add_lt_add_iff_right]
      constructor
      · intro h
        exact Or.inr ((ih hsort.2 x).mp h)
      · rintro (rfl | hmem)
        · omega
        · exact (ih hsort.2 x).mpr hmem
    · have hstep : bisect_left (a :: t) x = 0 := by
        unfold bisect_left
        rw [List.takeWhile_cons_of_neg (by simp; omega)]
        rfl
      rw [hstep]
      simp only [List.length_cons, List.getD_cons_zero, List.mem_cons]
      constructor
      · rintro ⟨_, rfl⟩
        exact Or.inl rfl
      · rintro (rfl | hmem)
        · exact ⟨by omega, rfl⟩
        · exact absurd (hsort.1 x hmem) (by omega)

/-! ## Fixed-point logarithm helpers and the estimators -/

/-- `log2_256_more(a)` from src/intalg.py: an integer at least
`256 * log2(a)`. -/
def log2_256_more (a : Nat) : Nat :=
  if a ≤ 1 then 0
  else if a < 256 then LOG2_256_MORE_TABLE.getD a 0
  else
    let d := bit_count a - 8
    let m := a >>> d
    LOG2_256_MORE_TABLE.getD (m + (if m <<< d ≠ a then 1 else 0)) 0 + (d <<< 8)

/-- `log2_256_less(a)` from src/intalg.py: an integer at most
`256 * log2(a)`.  The `a <= 0` ValueError branch is unreachable from the
embedded call sites (prime_count_more calls it with `a >= 127` only); it is
mapped to 0 here. -/
def log2_256_less (a : Nat) : Nat :=
  if a = 0 then 0
  else if a < 256 then LOG2_256_LESS_TABLE.getD a 0
  else
    let d := bit_count a - 8
    LOG2_256_LESS_TABLE.getD (a >>> d) 0 + (d <<< 8)

/-- `log_more(a, b)` from src/intalg.py: an integer at least `a * ln(b)`.
Embedded call sites always pass `b >= 0`, so the `b < 0` ValueError branch is
unreachable; the divisions are Python floor divisions of nonnegative
operands, computed here in `Nat`. -/
def log_more (a b : Int) : Int :=
  if a ≤ 0 ∨ b = 1 then 0
  else if b = 2 then
    ((a.toNat * 69314718055994531 + 99999999999999999) / 100000000000000000 : Nat)
  else
    ((a.toNat * log2_256_more b.toNat * 27076062 + 9999999999) / 10000000000 : Nat)

/-- `prime_idx_more(i)` from src/intalg.py: a value at least the i-th prime
(the 1st prime is 2): `FIRST_PRIMES[i]` for `i < 54` (2 for `i < 1`), and
`log_more(i, log_more(i, i))` otherwise. -/
def prime_idx_more (i : Int) : Int :=
  if i < 54 then
    (if i < 1 then 2 else (FIRST_PRIMES.getD i.toNat 0 : Int))
  else log_more i (log_more i i)

/-- `first_primes_moremem(i)` from src/intalg.py (used by `is_prime` for a
large accuracy argument): a table prefix for `i <= 54`, else a prefix of the
prime cache if long enough, else a fresh sieve bounded by
`prime_idx_more(i)` truncated to `i` entries (`del s[i:]`). -/
def first_primes_moremem (i : Nat) (st : PCache) : List Nat :=
  if i ≤ 54 then FIRST_PRIMES.take i
  else if i ≤ st.cache.length then st.cache.take i
  else (primes_upto (prime_idx_more (i : Int)) st).take i

/-- `prime_count_more(n, accuracy=100000)` from src/intalg.py.  Its final
accurate branch executes `return prime_count(n, limit)`, but no global named
`prime_count` is defined anywhere in the module (the module only defines
`prime_count_cached` and `prime_count_more`), so reaching that statement
raises `NameError` at run time; the preceding selection of `limit` (546,
11775, 48382, 70143 or 302076 depending on accuracy) has no other effect. -/
def prime_count_more (n : Int) (accuracy : Int) (st : PCache) : Except PyErr Int :=
  if accuracy < 3000 then .error .valueError
  else if n < 0 then .ok 0
  else if n < 127 then .ok (PRIME_COUNTS_STR_127.getD n.toNat 0 : Int)
  else if accuracy ≥ 100000 ∨ n > 302976 ∨ (accuracy ≥ 50000 ∧ n > 546) ∨
      (accuracy ≥ 10000 ∧ n > 11775) ∨ (accuracy ≥ 5000 ∧ n > 48382) ∨
      (accuracy ≥ 4000 ∧ n > 70143) then
    let v : Nat := n.toNat * 5540 / (log2_256_less n.toNat * 15 - 6094)
    .ok (if 24107 ≤ n ∧ n ≤ 60174 then (v : Int) + 3 else (v : Int))
  else if n ≤ st.limit then .ok (bisect_right st.cache n : Int)
  else .error .nameError

end Intalg

namespace Intalg

/-! ## is_prime (Miller-Rabin) -/

/-- The three values `is_prime` returns: the bools `False` and `True`, and
the plain int `1` of the probabilistic regime (docstring: "1 if n is a prime
with probability at least 1 - 4.0 ** -accuracy"). -/
inductive PyRet where
  | pFalse
  | pTrue
  | pOne
  deriving DecidableEq, Repr

/-- The numeric value Python's `==` compares for each returned object: in
Python `bool` is a subtype of `int` with `False == 0` and `True == 1`, and
the probabilistic return value is the int `1`. -/
def pyNum : PyRet → Int
  | .pFalse => 0
  | .pTrue => 1
  | .pOne => 1

/-- Python `==` on the three returned values. -/
def pyEq (a b : PyRet) : Bool := pyNum a == pyNum b

/-- Python truthiness of the returned values (`if is_prime(n):`). -/
def pyTruthy (a : PyRet) : Bool := pyNum a != 0

/-- The loop `s = 0; while not (n1 & (1 << s)): s += 1` of `is_prime`: the
index of the lowest set bit of `n1`.  Fuel `n1` suffices for `n1 >= 1`. -/
def lowBitAux : Nat → Nat → Nat → Nat
  | 0, _, s => s
  | fuel + 1, n1, s => if n1 &&& (1 <<< s) ≠ 0 then s else lowBitAux fuel n1 (s + 1)

/-- The inner squaring loop of one Miller-Rabin round, with `t` iterations
remaining: `for _ in xrange(s - 1): if a in h: break; a = (a * a) % n`,
followed by the final `if a != n1: return False`.  `true` means the witness
passes. -/
def mrSquare (n n1 : Nat) : Nat → Nat → Bool
  | 0, a => a == n1
  | t + 1, a => if a = 1 ∨ a = n1 then a == n1 else mrSquare n n1 t ((a * a) % n)

/-- One Miller-Rabin witness `b` for odd `n` (`h = (1, n1)`;
`a = pow(b, n2, n)`; accept immediately if `a in h`, else square once and run
the inner loop).  `true` means `b` does not prove `n` composite. -/
def mrWitnessOk (n n1 s b : Nat) : Bool :=
  let n2 := n1 >>> s
  let a := powMod b n2 n
  if a = 1 ∨ a = n1 then true
  else mrSquare n n1 (s - 1) ((a * a) % n)

/-- The Miller-Rabin tail of `is_prime` (from `n1 = n - 1` on) for a chosen
base list; `is_accurate` selects `True` versus the probabilistic `1` on
acceptance.  A base proving compositeness returns `False` immediately, which
is the same as the conjunction over the list. -/
def mrTest (n : Nat) (bases : List Nat) (is_accurate : Bool) : PyRet :=
  let n1 := n - 1
  let s := lowBitAux n1 n1 0
  if s ≠ 0 then
    if bases.all (fun b => mrWitnessOk n n1 s b) then
      (if is_accurate then .pTrue else .pOne)
    else .pFalse
  else (if is_accurate then .pTrue else .pOne)

/-- The body of `is_prime` after the sign handling, for `n >= 2`: parity
check, exact prime-cache lookup, deterministic Miller-Rabin base lists by
magnitude bracket up to 2^64, and the two `> 2^64` regimes (`accuracy`
absent: GRH-conditional base range; `accuracy` given: first primes as bases,
probabilistic result). -/
def isPrimeNat (n : Nat) (accuracy : Option Int) (st : PCache) : PyRet :=
  if n % 2 = 0 then (if n = 2 then .pTrue else .pFalse)
  else if (n : Int) ≤ st.limit then
    (let i := bisect_left st.cache n
     if i < st.cache.length ∧ st.cache.getD i 0 = n then .pTrue else .pFalse)
  else if n < 1373653 then
    (if n = 3 then .pTrue else mrTest n [2, 3] true)
  else if n < 316349281 then mrTest n [11000544, 31481107] true
  else if n < 105936894253 then mrTest n [2, 1005905886, 1340600841] true
  else if n < 31858317218647 then mrTest n [2, 642735, 553174392, 3046413974] true
  else if n < 3071837692357849 then
    mrTest n [2, 75088, 642735, 203659041, 3613982119] true
  else if n < 18446744073709551617 then
    mrTest n [2, 325, 9375, 28178, 450775, 9780504, 1795265022] true
  else
    match accuracy with
    | none =>
      mrTest n
        (List.range' 2
          ((1 + ((log_more (log_more 65536 (n : Int)) (n : Int)).toNat >>> 15)) - 2))
        true
    | some acc =>
      if acc ≤ 54 then mrTest n (FIRST_PRIMES.take (max 7 acc).toNat) false
      else mrTest n (first_primes_moremem acc.toNat st) false

/-- `is_prime(n, accuracy=None)` from src/intalg.py: `-1 <= n <= 1` is
composite, other negative `n` is replaced by `-n`. -/
def is_prime (x : Int) (accuracy : Option Int) (st : PCache) : PyRet :=
  if x < 2 then
    if x > -2 then .pFalse
    else isPrimeNat (-x).toNat accuracy st
  else isPrimeNat x.toNat accuracy st

end Intalg

namespace Intalg

/-- The 168 primes up to 1000, as a literal list (validated below against the
verified sieve). -/
def smallPrimesLit : List Nat :=
  [2, 3, 5, 7, 11, 13, 17, 19, 23, 29, 31, 37, 41, 43, 47, 53, 59, 61, 67,
   71, 73, 79, 83, 89, 97, 101, 103, 107, 109, 113, 127, 131, 137, 139,
   149, 151, 157, 163, 167, 173, 179, 181, 191, 193, 197, 199, 211, 223,
   227, 229, 233, 239, 241, 251, 257, 263, 269, 271, 277, 281, 283, 293,
   307, 311, 313, 317, 331, 337, 347, 349, 353, 359, 367, 373, 379, 383,
   389, 397, 401, 409, 419, 421, 431, 433, 439, 443, 449, 457, 461, 463,
   467, 479, 487, 491, 499, 503, 509, 521, 523, 541, 547, 557, 563, 569,
   571, 577, 587, 593, 599, 601, 607, 613, 617, 619, 631, 641, 643, 647,
   653, 659, 661, 673, 677, 683, 691, 701, 709, 719, 727, 733, 739, 743,
   751, 757, 761, 769, 773, 787, 797, 809, 811, 821, 823, 827, 829, 839,
   853, 857, 859, 863, 877, 881, 883, 887, 907, 911, 919, 929, 937, 941,
   947, 953, 967, 971, 977, 983, 991, 997]

set_option maxRecDepth 20000 in
theorem smallPrimesLit_eq_sieve : smallPrimesLit = primesUptoSieve 1000 := by
  decide

theorem smallPrimesLit_eq : smallPrimesLit = primesList 1000 :=
  smallPrimesLit_eq_sieve.trans (primesUptoSieve_eq 1000 (by omega))

theorem mem_smallPrimesLit (n : Nat) (hn : n ≤ 1000) :
    n ∈ smallPrimesLit ↔ Nat.Prime n := by
  rw [smallPrimesLit_eq, mem_primesList]
  exact ⟨fun h => h.1, fun h => ⟨h, hn⟩⟩

set_option maxRecDepth 20000 in
set_option maxHeartbeats 4000000 in
theorem mr_small : ∀ n : Nat, n < 1001 → n % 2 = 1 → 5 ≤ n →
    mrTest n [2, 3] true =
      (if n ∈ smallPrimesLit then PyRet.pTrue else PyRet.pFalse) := by
  decide

theorem is_prime_small (st : PCache) (hst : Valid st) (x : Int)
    (h0 : 0 ≤ x) (h1000 : x ≤ 1000) :
    is_prime x none st =
      (if Nat.Prime x.toNat then PyRet.pTrue else PyRet.pFalse) := by
  obtain ⟨hcache, hlim⟩ := hst
  by_cases hx2 : x < 2
  · unfold is_prime
    rw [if_pos hx2, if_pos (by omega)]
    have hx01 : x.toNat = 0 ∨ x.toNat = 1 := by omega
    rcases hx01 with h | h <;> rw [h]
    · simp [Nat.not_prime_zero]
    · simp [Nat.not_prime_one]
  · unfold is_prime
    rw [if_neg hx2]
    set n := x.toNat with hn
    have hn2 : 2 ≤ n := by omega
    have hn1000 : n ≤ 1000 := by omega
    unfold isPrimeNat
    by_cases heven : n % 2 = 0
    · rw [if_pos heven]
      by_cases h2 : n = 2
      · rw [if_pos h2, h2]
        simp [Nat.prime_two]
      · have hnp : ¬ Nat.Prime n := by
          intro hp
          rcases hp.eq_two_or_odd with h | h
          · exact h2 h
          · omega
        rw [if_neg h2, if_neg hnp]
    · rw [if_neg heven]
      by_cases hcachehit : (n : Int) ≤ st.limit
      · rw [if_pos hcachehit]
        have hsort : List.Pairwise (· < ·) st.cache := by
          rw [hcache]
          exact cachePrimes_sorted _
        have hmem := bisect_left_mem st.cache hsort n
        show (if bisect_left st.cache n < st.cache.length ∧
            st.cache.getD (bisect_left st.cache n) 0 = n
          then PyRet.pTrue else PyRet.pFalse) = _
        by_cases hin : n ∈ st.cache
        · rw [if_pos (hmem.mpr hin)]
          have hpr := (mem_cachePrimes st.limit n).mp (hcache ▸ hin)
          rw [if_pos hpr.1]
        · rw [if_neg (fun hc => hin (hmem.mp hc))]
          have hnp : ¬ Nat.Prime n := by
            intro hp
            exact hin (by
              rw [hcache]
              exact (mem_cachePrimes st.limit n).mpr ⟨hp, hcachehit⟩)
          rw [if_neg hnp]
      · rw [if_neg hcachehit, if_pos (by omega : n < 1373653)]
        by_cases h3 : n = 3
        · rw [if_pos h3, h3]
          simp [Nat.prime_three]
        · rw [if_neg h3]
          have h5 : 5 ≤ n := by omega
          rw [mr_small n (by omega) (by omega) h5]
          simp only [mem_smallPrimesLit n hn1000]

end Intalg

namespace Intalg

/-! ## Cache-mutating operations and the state machine -/

/-- `clear_prime_cache()` from src/intalg.py: reset the limit to 1 and empty
the cache. -/
def clear_prime_cache (_st : PCache) : PCache := ⟨[], 1⟩

/-- `ensure_prime_cache_upto(limit)` from src/intalg.py: full rebuild if the
current validity limit is below the requested one. -/
def ensure_prime_cache_upto (l : Int) (st : PCache) : PCache :=
  if st.limit < l then ⟨primes_upto l st, l⟩ else st

/-- `ensure_prime_cache_size(n)` from src/intalg.py: if fewer than `n` primes
are cached, grow to `prime_idx_more(n)` (the trailing `assert` reads but does
not modify the state). -/
def ensure_prime_cache_size (n : Int) (st : PCache) : PCache :=
  if (st.cache.length : Int) < n then ensure_prime_cache_upto (prime_idx_more n) st
  else st

/-- The doubling loop `while limit < n: limit <<= 1` of `prime_index` and
`prime_count_cached` (default start 256), with fuel; fuel `n.toNat` is always
sufficient for the start values used. -/
def doubleLimit : Nat → Int → Int → Int
  | 0, limit, _ => limit
  | fuel + 1, limit, n => if limit < n then doubleLimit fuel (limit * 2) n else limit

/-- `prime_index(n, limit=256)` from src/intalg.py: result and state effect.
For the bisect the embedding uses `n.toNat`; for negative `n` this agrees
with the source (every cached prime exceeds both `n` and `n.toNat`, so the
insertion point is 0 and the equality test fails either way). -/
def prime_index (n : Int) (st : PCache) : Option Nat × PCache :=
  let st1 := if st.limit < n
    then ensure_prime_cache_upto (doubleLimit n.toNat 256 n) st
    else st
  let i := bisect_left st1.cache n.toNat
  (if i < st1.cache.length ∧ st1.cache.getD i 0 = n.toNat then some i else none,
   st1)

/-- `prime_count_cached(n, limit=256)` from src/intalg.py: result and state
effect (inside the `n > limit` branch the source assigns the sieve result and
the grown limit directly). -/
def prime_count_cached (n : Int) (st : PCache) : Nat × PCache :=
  let st1 := if st.limit < n
    then
      (let l := doubleLimit n.toNat 256 n
       (⟨primes_upto l st, l⟩ : PCache))
    else st
  (bisect_right st1.cache n, st1)

/-- The public cache-touching calls of src/intalg.py, with their arguments
(`prime_index` and `prime_count_cached` with the default `limit=256`). -/
inductive COp where
  | clear
  | ensureUpto (l : Int)
  | ensureSize (n : Int)
  | primeIndex (n : Int)
  | primeCountCached (n : Int)
  | primesUpto (n : Int)
  | isPrime (n : Int) (accuracy : Option Int)
  deriving DecidableEq, Repr

/-- The state effect of one call.  `primes_upto` and `is_prime` only read the
globals (their embeddings are functions of the state that produce no new
state), so their steps return the state unchanged. -/
def stepState : COp → PCache → PCache
  | .clear, st => clear_prime_cache st
  | .ensureUpto l, st => ensure_prime_cache_upto l st
  | .ensureSize n, st => ensure_prime_cache_size n st
  | .primeIndex n, st => (prime_index n st).2
  | .primeCountCached n, st => (prime_count_cached n st).2
  | .primesUpto _, st => st
  | .isPrime _ _, st => st

/-- A finite sequence of calls, starting from a given state. -/
def runOps (ops : List COp) (st : PCache) : PCache :=
  ops.foldl (fun s o => stepState o s) st

theorem doubleLimit_ge_start : ∀ fuel limit n, 1 ≤ limit →
    limit ≤ doubleLimit fuel limit n := by
  intro fuel
  induction fuel with
  | zero => intro limit n _; exact le_rfl
  | succ fuel ih =>
    intro limit n hl
    unfold doubleLimit
    split
    · calc limit ≤ limit * 2 := by omega
        _ ≤ doubleLimit fuel (limit * 2) n := ih _ n (by omega)
    · exact le_rfl

theorem doubleLimit_ge_n : ∀ fuel limit n, n ≤ limit * 2 ^ fuel → 1 ≤ limit →
    n ≤ doubleLimit fuel limit n := by
  intro fuel
  induction fuel with
  | zero =>
    intro limit n hle _
    simpa using hle
  | succ fuel ih =>
    intro limit n hle hl
    unfold doubleLimit
    split
    · refine ih (limit * 2) n ?_ (by omega)
      calc n ≤ limit * 2 ^ (fuel + 1) := hle
        _ = limit * 2 * 2 ^ fuel := by ring
    · next hnl => omega

theorem doubleLimit_suffices (n : Int) (hn : 1 ≤ n) :
    n ≤ doubleLimit n.toNat 256 n := by
  refine doubleLimit_ge_n n.toNat 256 n ?_ (by omega)
  have h1 : (n.toNat : Int) = n := Int.toNat_of_nonneg (by omega)
  have h2 : (n.toNat : Int) < (2 : Int) ^ n.toNat := by
    have h3 : n.toNat < 2 ^ n.toNat := Nat.lt_two_pow n.toNat
    exact_mod_cast h3
  have h4 : (0 : Int) < 2 ^ n.toNat := by positivity
  calc n = (n.toNat : Int) := h1.symm
    _ ≤ 2 ^ n.toNat := by omega
    _ ≤ 256 * 2 ^ n.toNat := by omega

theorem ensure_prime_cache_upto_valid (l : Int) (st : PCache) (h : Valid st) :
    Valid (ensure_prime_cache_upto l st) := by
  unfold ensure_prime_cache_upto
  split
  · next hlt =>
    refine ⟨?_, ?_⟩
    · show primes_upto l st = cachePrimes l
      exact primes_upto_valid st h l
    · show (1 : Int) ≤ l
      have := h.2
      omega
  · exact h

theorem ensure_prime_cache_upto_mono (l : Int) (st : PCache) :
    st.limit ≤ (ensure_prime_cache_upto l st).limit := by
  unfold ensure_prime_cache_upto
  split
  · next hlt => exact le_of_lt hlt
  · exact le_rfl

theorem stepState_valid (o : COp) (st : PCache) (h : Valid st) :
    Valid (stepState o st) := by
  cases o with
  | clear =>
    constructor
    · rfl
    · exact le_rfl
  | ensureUpto l => exact ensure_prime_cache_upto_valid l st h
  | ensureSize n =>
    show Valid (ensure_prime_cache_size n st)
    unfold ensure_prime_cache_size
    split
    · exact ensure_prime_cache_upto_valid _ st h
    · exact h
  | primeIndex n =>
    show Valid (prime_index n st).2
    have heq : (prime_index n st).2 =
        if st.limit < n then
          ensure_prime_cache_upto (doubleLimit n.toNat 256 n) st
        else st := rfl
    rw [heq]
    split
    · exact ensure_prime_cache_upto_valid _ st h
    · exact h
  | primeCountCached n =>
    show Valid (prime_count_cached n st).2
    have heq : (prime_count_cached n st).2 =
        if st.limit < n then
          (⟨primes_upto (doubleLimit n.toNat 256 n) st,
            doubleLimit n.toNat 256 n⟩ : PCache)
        else st := rfl
    rw [heq]
    split
    · next hlt =>
      refine ⟨?_, ?_⟩
      · show primes_upto (doubleLimit n.toNat 256 n) st = cachePrimes _
        exact primes_upto_valid st h _
      · show 1 ≤ doubleLimit n.toNat 256 n
        calc (1 : Int) ≤ 256 := by omega
          _ ≤ doubleLimit n.toNat 256 n := doubleLimit_ge_start _ _ _ (by omega)
    · exact h
  | primesUpto n => exact h
  | isPrime n acc => exact h

theorem stepState_mono (o : COp) (st : PCache) (hne : o ≠ COp.clear) :
    st.limit ≤ (stepState o st).limit := by
  cases o with
  | clear => exact absurd rfl hne
  | ensureUpto l => exact ensure_prime_cache_upto_mono l st
  | ensureSize n =>
    show st.limit ≤ (ensure_prime_cache_size n st).limit
    unfold ensure_prime_cache_size
    split
    · exact ensure_prime_cache_upto_mono _ st
    · exact le_rfl
  | primeIndex n =>
    show st.limit ≤ (prime_index n st).2.limit
    have heq : (prime_index n st).2 =
        if st.limit < n then
          ensure_prime_cache_upto (doubleLimit n.toNat 256 n) st
        else st := rfl
    rw [heq]
    split
    · exact ensure_prime_cache_upto_mono _ st
    · exact le_rfl
  | primeCountCached n =>
    show st.limit ≤ (prime_count_cached n st).2.limit
    have heq : (prime_count_cached n st).2 =
        if st.limit < n then
          (⟨primes_upto (doubleLimit n.toNat 256 n) st,
            doubleLimit n.toNat 256 n⟩ : PCache)
        else st := rfl
    rw [heq]
    split
    · next hlt =>
      show st.limit ≤ doubleLimit n.toNat 256 n
      rcases le_or_lt n 256 with hn | hn
      · calc st.limit ≤ 256 := by omega
          _ ≤ doubleLimit n.toNat 256 n := doubleLimit_ge_start _ _ _ (by omega)
      · calc st.limit ≤ n := le_of_lt hlt
          _ ≤ doubleLimit n.toNat 256 n := doubleLimit_suffices n (by omega)
    · exact le_rfl
  | primesUpto n => exact le_rfl
  | isPrime n acc => exact le_rfl

theorem runOps_valid (ops : List COp) :
    Valid (runOps ops initState) := by
  have hinit : Valid initState := ⟨rfl, le_rfl⟩
  have hgen : ∀ (l : List COp) (st : PCache), Valid st → Valid (runOps l st) := by
    intro l
    induction l with
    | nil => intro st h; exact h
    | cons o t ih =>
      intro st h
      exact ih _ (stepState_valid o st h)
  exact hgen ops initState hinit

end Intalg

namespace Intalg

/-! ## RandomSource: MiniIntRandom, pollard, brent -/

/-- Modelled from the spec: `MiniIntRandom` extends `_random.Random`, whose
MT19937 seeding and `getrandbits` are CPython C code not present under src/.
The spec (section 4.7) requires only that construction from a seed is fully
deterministic (same seed, same `getrandbits` sequence).  The generator is
modelled as a deterministic raw-output stream `bits` (the k-th `getrandbits`
call truncates `bits k` to the requested width) with a position counter.
`cachedBitCount` is the `cached_bit_count` memo `(c, n)` of
`MiniIntRandom.randrange` (`none` encodes the initial `(None, None)`), and
`draws` is observational instrumentation recording every value `randrange`
returns (the "sequence of internal random draws" of the spec). -/
structure MiniIntRandom where
  bits : Nat → Nat
  pos : Nat
  cachedBitCount : Option (Nat × Int)
  draws : List Int

/-- Modelled from the spec: `MiniIntRandom(seed)`.  The concrete stream
function stands in for the deterministic MT19937 stream derived from the
integer seed. -/
def mkMiniIntRandom (seed : Nat) : MiniIntRandom :=
  ⟨fun k => (seed + k + 1) * 2654435761, 0, none, []⟩

/-- `getrandbits(c)`: the next raw output truncated to `c` bits. -/
def getrandbits (c : Nat) (r : MiniIntRandom) : Nat × MiniIntRandom :=
  (r.bits r.pos % 2 ^ c, { r with pos := r.pos + 1 })

/-- The rejection loop of `randrange`: draw `c` bits, redraw while the value
is `>= n`; the accepted value `start + r` is appended to the draw trace. -/
def rejLoop (n : Int) (c : Nat) (start : Int) :
    Nat → MiniIntRandom → Option (Int × MiniIntRandom)
  | 0, _ => none
  | fuel + 1, r =>
    let d := getrandbits c r
    if (d.1 : Int) ≥ n then rejLoop n c start fuel d.2
    else some (start + d.1, { d.2 with draws := d.2.draws ++ [start + (d.1 : Int)] })

/-- `MiniIntRandom.randrange(start, stop)` from src/intalg.py: `ValueError`
(`none`) if the range is empty; bit-count memoization keyed on the range
size; rejection sampling. -/
def randrange (start stop : Int) (r0 : MiniIntRandom) (fuel : Nat) :
    Option (Int × MiniIntRandom) :=
  let n := stop - start
  if n ≤ 0 then none
  else
    let cr : Nat × MiniIntRandom :=
      match r0.cachedBitCount with
      | some (cc, cn) =>
        if cn = n then (cc, r0)
        else (bit_count n.toNat,
          { r0 with cachedBitCount := some (bit_count n.toNat, n) })
      | none => (bit_count n.toNat,
          { r0 with cachedBitCount := some (bit_count n.toNat, n) })
    rejLoop n cr.1 start fuel cr.2

/-- The retry loop `while c == n - 2: c = random_obj.randrange(1, n)` shared
by pollard and brent (`c == n - 2` is the forbidden polynomial parameter). -/
def retryC (n : Int) : Nat → MiniIntRandom → Int → Option (Int × MiniIntRandom)
  | 0, _, _ => none
  | fuel + 1, r, c =>
    if c = n - 2 then
      match randrange 1 n r fuel with
      | none => none
      | some (c', r') => retryC n fuel r' c'
    else some (c, r)

/-- The cycle loop of `pollard`: one tortoise step and two hare steps, then
`g = gcd(abs(x - y), n)`; exits (returning `g`) when `g != 1`, which covers
both the `while` condition and the `g == n` break. -/
def pollardLoop (n c : Nat) : Nat → Nat → Nat → Option Nat
  | 0, _, _ => none
  | fuel + 1, x, y =>
    let x' := (x * x + c) % n
    let y1 := (y * y + c) % n
    let y' := (y1 * y1 + c) % n
    let g := Nat.gcd (Nat.dist x' y') n
    if g = 1 then pollardLoop n c fuel x' y' else some g

/-- `pollard(n, random_obj)` from src/intalg.py.  `none` covers the
`n <= 1` ValueError and fuel exhaustion of the unbounded loops. -/
def pollard (n : Nat) (r0 : MiniIntRandom) (fuel : Nat) :
    Option (Nat × MiniIntRandom) :=
  if n ≤ 1 then none
  else if n % 2 = 0 then some (2, r0)
  else
    match randrange 1 (n : Int) r0 fuel with
    | none => none
    | some (y, r1) =>
      match randrange 1 (n : Int) r1 fuel with
      | none => none
      | some (c0, r2) =>
        match retryC (n : Int) fuel r2 c0 with
        | none => none
        | some (c1, r3) =>
          match pollardLoop n c1.toNat fuel y.toNat y.toNat with
          | none => none
          | some g => some (g, r3)

/-- `for i in xrange(count): y = (y * y + c) % n` of brent. -/
def iterSq (n c : Nat) : Nat → Nat → Nat
  | 0, y => y
  | t + 1, y => iterSq n c t ((y * y + c) % n)

/-- The batched multiplier loop of brent:
`for i in xrange(min(m, r - k)): y = (y*y+c) % n; q = (q * abs(x - y)) % n`,
returning the updated `(y, q)`. -/
def brentBatch (n c x : Nat) : Nat → Nat → Nat → Nat × Nat
  | 0, y, q => (y, q)
  | t + 1, y, q =>
    let y' := (y * y + c) % n
    brentBatch n c x t y' ((q * Nat.dist x y') % n)

/-- The inner `while k < r and g == 1` loop of brent; the state is
`(k, y, q, ys, g)` and the result `(y, q, ys, g)`.  `ys` is saved before each
batch; `g = gcd(q, n)` after it; `k += m`. -/
def brentInner (n c m x r : Nat) :
    Nat → Nat → Nat → Nat → Nat → Nat → Nat × Nat × Nat × Nat
  | 0, _, y, q, ys, g => (y, q, ys, g)
  | fuel + 1, k, y, q, ys, g =>
    if k < r ∧ g = 1 then
      let p := brentBatch n c x (min m (r - k)) y q
      brentInner n c m x r fuel (k + m) p.1 p.2 y (Nat.gcd p.2 n)
    else (y, q, ys, g)

/-- The outer `while g == 1` loop of brent; carries `(x, y, q, r, ys, g)` and
returns `(g, x, ys)` on exit (`x` and `ys` feed the backtracking phase).
During iteration: `x = y`; `r` squarings of `y`; the inner loop; `r <<= 1`. -/
def brentOuter (n c m : Nat) :
    Nat → Nat → Nat → Nat → Nat → Nat → Nat → Option (Nat × Nat × Nat)
  | 0, _, _, _, _, _, _ => none
  | fuel + 1, x, y, q, r, ys, g =>
    if g = 1 then
      let y1 := iterSq n c r y
      let res := brentInner n c m y r (r + 1) 0 y1 q ys 1
      brentOuter n c m fuel y res.1 res.2.1 (r * 2) res.2.2.1 res.2.2.2
    else some (g, x, ys)

/-- The backtracking phase of brent (entered when the batched gcd returned
`n`): single steps from `ys`, recomputing the gcd until it exceeds 1. -/
def brentBack (n c x : Nat) : Nat → Nat → Option Nat
  | 0, _ => none
  | fuel + 1, ys =>
    let ys' := (ys * ys + c) % n
    let g := Nat.gcd (Nat.dist x ys') n
    if 1 < g then some g else brentBack n c x fuel ys'

/-- `brent(n, random_obj)` from src/intalg.py.  The second
`if c == n - 2: c = n - 1` check of the source is dead code after the retry
loop but is embedded as written.  The initial `x`/`ys` values passed to the
outer loop are placeholders: the first outer iteration (entered because
`g == 1`) overwrites `x`, and the first inner iteration (entered because
`k = 0 < r = 1`) overwrites `ys`, before either is read. -/
def brent (n : Nat) (r0 : MiniIntRandom) (fuel : Nat) :
    Option (Nat × MiniIntRandom) :=
  if n ≤ 1 then none
  else if n % 2 = 0 then some (2, r0)
  else
    match randrange 1 (n : Int) r0 fuel with
    | none => none
    | some (y, r1) =>
      match randrange 1 (n : Int) r1 fuel with
      | none => none
      | some (c0, r2) =>
        match retryC (n : Int) fuel r2 c0 with
        | none => none
        | some (c1, r3) =>
          let c2 := if c1 = (n : Int) - 2 then (n : Int) - 1 else c1
          match randrange 1 (n : Int) r3 fuel with
          | none => none
          | some (m, r4) =>
            match brentOuter n c2.toNat m.toNat fuel 0 y.toNat 1 1 0 1 with
            | none => none
            | some (g, x, ys) =>
              if g = n then
                match brentBack n c2.toNat x fuel ys with
                | none => none
                | some g2 => some (g2, r4)
              else some (g, r4)

end Intalg

namespace Intalg

/-- Any `g` returned by the pollard cycle loop is a nontrivial divisor of
`n` (possibly `n` itself). -/
theorem pollardLoop_correct (n c : Nat) (hn : 2 ≤ n) :
    ∀ fuel x y g, pollardLoop n c fuel x y = some g → g ∣ n ∧ 1 < g ∧ g ≤ n := by
  intro fuel
  induction fuel with
  | zero => intro x y g h; simp [pollardLoop] at h
  | succ f ih =>
    intro x y g h
    unfold pollardLoop at h
    simp only at h
    split at h
    · exact ih _ _ _ h
    · rename_i hne
      have hg : g = Nat.gcd (Nat.dist ((x*x+c)%n) (((((y*y+c)%n))*((y*y+c)%n)+c)%n)) n := by
        exact (Option.some.injEq _ _).mp h |>.symm
      have hdvd : g ∣ n := by rw [hg]; exact Nat.gcd_dvd_right _ _
      have hgz : g ≠ 0 := by
        intro h0
        rw [h0] at hdvd
        have := Nat.eq_zero_of_zero_dvd hdvd
        omega
      have hg1 : g ≠ 1 := by rw [hg]; exact hne
      exact ⟨hdvd, by omega, Nat.le_of_dvd (by omega) hdvd⟩

/-- C8 for pollard: every returned divisor really divides `n` and lies in
`(1, n]`. -/
theorem pollard_correct (n : Nat) (r0 : MiniIntRandom) (fuel : Nat)
    (hn : 2 ≤ n) (g : Nat) (r' : MiniIntRandom)
    (h : pollard n r0 fuel = some (g, r')) : g ∣ n ∧ 1 < g ∧ g ≤ n := by
  unfold pollard at h
  rw [if_neg (by omega)] at h
  split at h
  · rename_i heven
    have : g = 2 := by
      have := (Option.some.injEq _ _).mp h
      exact (Prod.mk.injEq _ _ _ _).mp this.symm |>.1
    subst this
    exact ⟨Nat.dvd_of_mod_eq_zero heven, by omega, by omega⟩
  · cases h1 : randrange 1 (n : Int) r0 fuel with
    | none => rw [h1] at h; simp at h
    | some p1 =>
      obtain ⟨y1, r1⟩ := p1
      rw [h1] at h
      simp only at h
      cases h2 : randrange 1 (n : Int) r1 fuel with
      | none => rw [h2] at h; simp at h
      | some p2 =>
        obtain ⟨c0, r2⟩ := p2
        rw [h2] at h
        simp only at h
        cases h3 : retryC (n : Int) fuel r2 c0 with
        | none => rw [h3] at h; simp at h
        | some p3 =>
          obtain ⟨c1, r3⟩ := p3
          rw [h3] at h
          simp only at h
          cases h4 : pollardLoop n c1.toNat fuel y1.toNat y1.toNat with
          | none => rw [h4] at h; simp at h
          | some g0 =>
            rw [h4] at h
            simp only [Option.some.injEq, Prod.mk.injEq] at h
            obtain ⟨hg, -⟩ := h
            subst hg
            exact pollardLoop_correct n c1.toNat hn fuel _ _ _ h4

/-- C8 even case for pollard: even `n ≥ 2` returns 2 with the random source
untouched. -/
theorem pollard_even (n : Nat) (r0 : MiniIntRandom) (fuel : Nat)
    (hn : 2 ≤ n) (he : n % 2 = 0) : pollard n r0 fuel = some (2, r0) := by
  unfold pollard
  rw [if_neg (by omega), if_pos he]

end Intalg

namespace Intalg

/-- The inner brent loop preserves "the g component is 1 or divides n". -/
theorem brentInner_g (n c m x r : Nat) :
    ∀ fuel k y q ys g, (g = 1 ∨ g ∣ n) →
      ((brentInner n c m x r fuel k y q ys g).2.2.2 = 1 ∨
       (brentInner n c m x r fuel k y q ys g).2.2.2 ∣ n) := by
  intro fuel
  induction fuel with
  | zero => intro k y q ys g hg; exact hg
  | succ f ih =>
    intro k y q ys g hg
    unfold brentInner
    split
    · exact ih _ _ _ _ _ (Or.inr (Nat.gcd_dvd_right _ _))
    · exact hg

/-- On exit of the outer brent loop, the returned `g` divides `n` and is
not 1. -/
theorem brentOuter_correct (n c m : Nat) :
    ∀ fuel x y q r ys g, (g = 1 ∨ g ∣ n) →
      ∀ p, brentOuter n c m fuel x y q r ys g = some p →
        p.1 ∣ n ∧ p.1 ≠ 1 := by
  intro fuel
  induction fuel with
  | zero => intro x y q r ys g hg p h; simp [brentOuter] at h
  | succ f ih =>
    intro x y q r ys g hg p h
    unfold brentOuter at h
    split at h
    · exact ih _ _ _ _ _ _ (brentInner_g n c m y r (r+1) 0 (iterSq n c r y) q ys 1 (Or.inl rfl)) p h
    · rename_i hne
      have hp : p.1 = g := by
        have := (Option.some.injEq _ _).mp h
        rw [← this]
      rw [hp]
      rcases hg with h1 | hdvd
      · exact absurd h1 hne
      · exact ⟨hdvd, hne⟩

/-- Any `g` returned by the brent backtracking loop is a nontrivial divisor
of `n`. -/
theorem brentBack_correct (n c x : Nat) (hn : 2 ≤ n) :
    ∀ fuel ys g, brentBack n c x fuel ys = some g → g ∣ n ∧ 1 < g ∧ g ≤ n := by
  intro fuel
  induction fuel with
  | zero => intro ys g h; simp [brentBack] at h
  | succ f ih =>
    intro ys g h
    unfold brentBack at h
    simp only at h
    split at h
    · rename_i hgt
      have hg : g = Nat.gcd (Nat.dist x ((ys*ys+c)%n)) n :=
        ((Option.some.injEq _ _).mp h).symm
      have hdvd : g ∣ n := by rw [hg]; exact Nat.gcd_dvd_right _ _
      rw [← hg] at hgt
      exact ⟨hdvd, hgt, Nat.le_of_dvd (by omega) hdvd⟩
    · exact ih _ _ h

/-- C8 for brent: every returned divisor really divides `n` and lies in
`(1, n]`. -/
theorem brent_correct (n : Nat) (r0 : MiniIntRandom) (fuel : Nat)
    (hn : 2 ≤ n) (g : Nat) (r' : MiniIntRandom)
    (h : brent n r0 fuel = some (g, r')) : g ∣ n ∧ 1 < g ∧ g ≤ n := by
  unfold brent at h
  rw [if_neg (by omega)] at h
  split at h
  · rename_i heven
    have : g = 2 := by
      have := (Option.some.injEq _ _).mp h
      exact (Prod.mk.injEq _ _ _ _).mp this.symm |>.1
    subst this
    exact ⟨Nat.dvd_of_mod_eq_zero heven, by omega, by omega⟩
  · cases h1 : randrange 1 (n : Int) r0 fuel with
    | none => rw [h1] at h; simp at h
    | some p1 =>
      obtain ⟨y1, r1⟩ := p1
      rw [h1] at h
      simp only at h
      cases h2 : randrange 1 (n : Int) r1 fuel with
      | none => rw [h2] at h; simp at h
      | some p2 =>
        obtain ⟨c0, r2⟩ := p2
        rw [h2] at h
        simp only at h
        cases h3 : retryC (n : Int) fuel r2 c0 with
        | none => rw [h3] at h; simp at h
        | some p3 =>
          obtain ⟨c1, r3⟩ := p3
          rw [h3] at h
          simp only at h
          cases h4 : randrange 1 (n : Int) r3 fuel with
          | none => rw [h4] at h; simp at h
          | some p4 =>
            obtain ⟨m, r4⟩ := p4
            rw [h4] at h
            simp only at h
            cases h5 : brentOuter n (if c1 = (n : Int) - 2 then (n : Int) - 1 else c1).toNat
                m.toNat fuel 0 y1.toNat 1 1 0 1 with
            | none => rw [h5] at h; simp at h
            | some p5 =>
              obtain ⟨g0, x0, ys0⟩ := p5
              rw [h5] at h
              simp only at h
              have houter := brentOuter_correct n
                (if c1 = (n : Int) - 2 then (n : Int) - 1 else c1).toNat m.toNat
                fuel 0 y1.toNat 1 1 0 1 (Or.inl rfl) _ h5
              split at h
              · cases h6 : brentBack n (if c1 = (n : Int) - 2 then (n : Int) - 1 else c1).toNat
                    x0 fuel ys0 with
                | none => rw [h6] at h; simp at h
                | some g2 =>
                  rw [h6] at h
                  simp only [Option.some.injEq, Prod.mk.injEq] at h
                  obtain ⟨hg, -⟩ := h
                  subst hg
                  exact brentBack_correct n _ x0 hn fuel ys0 _ h6
              · rename_i hgne
                simp only [Option.some.injEq, Prod.mk.injEq] at h
                obtain ⟨hg, -⟩ := h
                subst hg
                obtain ⟨hdvd, hne1⟩ := houter
                have hgz : g0 ≠ 0 := by
                  intro h0
                  rw [h0] at hdvd
                  have := Nat.eq_zero_of_zero_dvd hdvd
                  omega
                have hne1n : g0 ≠ 1 := hne1
                exact ⟨hdvd, by omega, Nat.le_of_dvd (by omega) hdvd⟩

/-- C8 even case for brent: even `n ≥ 2` returns 2 with the random source
untouched. -/
theorem brent_even (n : Nat) (r0 : MiniIntRandom) (fuel : Nat)
    (hn : 2 ≤ n) (he : n % 2 = 0) : brent n r0 fuel = some (2, r0) := by
  unfold brent
  rw [if_neg (by omega), if_pos he]

end Intalg

namespace Intalg

/-! ## factorize -/

/-- `p = 1; while not (n & (1 << p)): p += 1` of factorize: the index of the
lowest set bit of `N` at or above position 1 (called with `N` even). -/
def lowSetBit (N : Nat) : Nat → Nat → Nat
  | 0, p => p
  | f + 1, p => if N &&& (1 <<< p) = 0 then lowSetBit N f (p + 1) else p

/-- `while not (n % p): ps.append(p); n /= p`: divides `p` out of `N`,
returning the co-factor and the number of divisions performed. -/
def divOut (p : Nat) : Nat → Nat → Nat × Nat
  | 0, N => (N, 0)
  | f + 1, N =>
    if N % p = 0 then
      let r := divOut p f (N / p)
      (r.1, r.2 + 1)
    else (N, 0)

/-- The trial-division loop of factorize over `_small_primes_for_factorize`:
stop at the first prime above `q = sqrt_floor(n)`; on a hit, divide the prime
out fully, record it in `ps` (with multiplicity) and `pds` (once), and
refresh `q`.  State `(N, ps, pds)`. -/
def trialLoop : List Nat → Nat → Nat → List Nat → List Nat → Nat × List Nat × List Nat
  | [], N, _, ps, pds => (N, ps, pds)
  | p :: rest, N, q, ps, pds =>
    if q < p then (N, ps, pds)
    else if N % p = 0 then
      let r := divOut p N N
      trialLoop rest r.1 (sqrt_floor r.1) (ps ++ List.replicate r.2 p) (pds ++ [p])
    else trialLoop rest N q ps pds

/-- `for i in xrange(i, len(pds)): p = pds[i]; while not (n % p): ...`:
propagates the prime divisors found so far into the popped co-factor. -/
def propLoop : List Nat → Nat → List Nat → Nat × List Nat
  | [], N, ps => (N, ps)
  | p :: rest, N, ps =>
    let r := divOut p N N
    propLoop rest r.1 (ps ++ List.replicate r.2 p)

/-- `d = divisor_finder(n, random_obj); while d == n: d = divisor_finder(...)`:
call the divisor finder, retrying while it returns `n` itself. -/
def dfRetry (df : Nat → MiniIntRandom → Option (Nat × MiniIntRandom)) (n : Nat) :
    Nat → MiniIntRandom → Option (Nat × MiniIntRandom)
  | 0, _ => none
  | fuel + 1, r =>
    match df n r with
    | none => none
    | some (d, r') => if d = n then dfRetry df n fuel r' else some (d, r')

/-- The `while 1` splitting loop of factorize: if the co-factor is below
`_SMALL_PRIME_CUTOFF` or passes `is_prime`, record it as prime and break;
otherwise obtain a nontrivial divisor `d`, push the larger of `d` and `n/d`
onto the stack (tagged with the current `len(pds)`) and continue with the
smaller.  State `(n, ps, pds, stack, random)`. -/
def innerLoop (df : Nat → MiniIntRandom → Option (Nat × MiniIntRandom)) (st : PCache) :
    Nat → Nat → List Nat → List Nat → List (Nat × Nat) → MiniIntRandom →
    Option (List Nat × List Nat × List (Nat × Nat) × MiniIntRandom)
  | 0, _, _, _, _, _ => none
  | fuel + 1, n, ps, pds, stack, r =>
    if n < 4295098369 ∨ pyTruthy (is_prime (n : Int) none st) then
      some (ps ++ [n], pds ++ [n], stack, r)
    else
      match dfRetry df n (fuel + 1) r with
      | none => none
      | some (d, r') =>
        if n / d < d then innerLoop df st fuel (n / d) ps pds ((d, pds.length) :: stack) r'
        else innerLoop df st fuel d ps pds ((n / d, pds.length) :: stack) r'

/-- The `while stack` loop of factorize: pop `(n, i)`, propagate the prime
divisors `pds[i:]` into `n`, then (unless `n` collapsed to 1) run the
splitting loop. -/
def stackLoop (df : Nat → MiniIntRandom → Option (Nat × MiniIntRandom)) (st : PCache) :
    Nat → List (Nat × Nat) → List Nat → List Nat → MiniIntRandom →
    Option (List Nat × MiniIntRandom)
  | 0, _, _, _, _ => none
  | fuel + 1, stack, ps, pds, r =>
    match stack with
    | [] => some (ps, r)
    | (n, i) :: rest =>
      let pr := propLoop (pds.drop i) n ps
      if pr.1 = 1 then stackLoop df st fuel rest pr.2 pds r
      else
        match innerLoop df st (fuel + 1) pr.1 pr.2 pds rest r with
        | none => none
        | some (ps', pds', stack', r') => stackLoop df st fuel stack' ps' pds' r'

/-- The draw trace carried by an optional random source. -/
def dtrace : Option MiniIntRandom → List Int
  | some r => r.draws
  | none => []

/-- `factorize(n, divisor_finder, random_obj)` from src/intalg.py.
`df` is the `divisor_finder` argument (the default is `brent`), `st` the
prime-cache state read by the embedded `is_prime` and `primes_upto`, and
`spg` the `_small_primes_for_factorize` global (`[]` when the module-level
list is still unpopulated, in which case it is filled from
`primes_upto(65536)[1:]`).  The result pairs the factor list with the
complete draw trace of the random source used; `none` is fuel exhaustion and
`.error .valueError` the `n <= 0` ValueError.  The Python `stack` is
modelled with `pop`/`append` at the head of a list. -/
def factorize (n : Int) (df : Nat → MiniIntRandom → Option (Nat × MiniIntRandom))
    (random_obj : Option MiniIntRandom) (st : PCache) (spg : List Nat) (fuel : Nat) :
    Option (Except PyErr (List Nat × List Int)) :=
  if n ≤ 0 then some (.error .valueError)
  else if n = 1 then some (.ok ([], dtrace random_obj))
  else if pyTruthy (is_prime n none st) then some (.ok ([n.toNat], dtrace random_obj))
  else
    let spg1 := if spg = [] then (primes_upto 65536 st).tail else spg
    let N0 := n.toNat
    let q0 := sqrt_floor N0
    let step2 : Nat × Nat × List Nat × List Nat :=
      if 2 ≤ q0 ∧ N0 &&& 1 = 0 then
        let p := lowSetBit N0 N0 1
        (N0 >>> p, sqrt_floor (N0 >>> p), List.replicate p 2, [2])
      else (N0, q0, [], [])
    let t := trialLoop spg1 step2.1 step2.2.1 step2.2.2.1 step2.2.2.2
    if t.1 = 1 then some (.ok (List.insertionSort (fun a b => a ≤ b) t.2.1, dtrace random_obj))
    else if t.1 < 4295098369 then
      some (.ok (List.insertionSort (fun a b => a ≤ b) (t.2.1 ++ [t.1]), dtrace random_obj))
    else
      let r0 := match random_obj with
        | some r => r
        | none => mkMiniIntRandom t.1
      match stackLoop df st fuel [(t.1, t.2.2.length)] t.2.1 t.2.2 r0 with
      | none => none
      | some (ps, r') =>
        some (.ok (List.insertionSort (fun a b => a ≤ b) ps, r'.draws))

end Intalg

namespace Intalg

/-! ## Claim theorems -/

/-- C2: for every valid prime-cache state and every integer `0 <= n <= 1000`,
`is_prime(n)` with default accuracy returns exactly `True` on primes and
`False` on non-primes, i.e. it matches membership in `primes_upto(1000)`,
with no false positives or negatives in this range. -/
theorem claim_C2_is_prime_upto_1000 (st : PCache) (hst : Valid st) (x : Int)
    (h0 : 0 ≤ x) (h1 : x ≤ 1000) :
    is_prime x none st =
      (if x.toNat ∈ primes_upto 1000 st then PyRet.pTrue else PyRet.pFalse) := by
  rw [is_prime_small st hst x h0 h1, primes_upto_valid st hst 1000]
  have hmem : x.toNat ∈ cachePrimes 1000 ↔ Nat.Prime x.toNat := by
    rw [mem_cachePrimes]
    constructor
    · exact And.left
    · intro hp
      refine ⟨hp, ?_⟩
      omega
  exact if_congr hmem.symm rfl rfl

/-- Witness for C2 at `n = 97` from the initial cache state. -/
theorem claim_C2_witness :
    Valid initState ∧ (0 : Int) ≤ 97 ∧ (97 : Int) ≤ 1000 ∧
    is_prime 97 none initState =
      (if (97 : Int).toNat ∈ primes_upto 1000 initState
       then PyRet.pTrue else PyRet.pFalse) :=
  ⟨⟨rfl, le_rfl⟩, by decide, by decide,
   claim_C2_is_prime_upto_1000 initState ⟨rfl, le_rfl⟩ 97 (by decide) (by decide)⟩

/-- C3: for every `n >= 0`, `r = sqrt_floor(n)` satisfies
`r*r <= n < (r+1)*(r+1)`; and for every `n >= 0`, `k >= 1`, `root_floor(n,k)`
returns a pair `(r, e)` with `r^k <= n < (r+1)^k` and `e` true iff
`r^k == n`; in particular `root_floor(n, 1) == (n, True)`. -/
theorem claim_C3_sqrt_root (n k : Nat) (hk : 1 ≤ k) :
    (sqrt_floor n * sqrt_floor n ≤ n ∧
     n < (sqrt_floor n + 1) * (sqrt_floor n + 1)) ∧
    (∃ p, root_floor n k = some p ∧
      p.1 ^ k ≤ n ∧ n < (p.1 + 1) ^ k ∧ (p.2 = true ↔ p.1 ^ k = n)) ∧
    root_floor n 1 = some (n, true) := by
  refine ⟨sqrt_floor_spec n, ?_, ?_⟩
  · obtain ⟨p, hp, hs⟩ := root_floor_spec n k hk
    exact ⟨p, hp, hs.1, hs.2.1, hs.2.2⟩
  · unfold root_floor
    rw [if_neg (by omega : ¬(1 = 0)), if_pos (Or.inl rfl)]

/-- Witness for C3 at `n = 10`, `k = 3`. -/
theorem claim_C3_witness :
    1 ≤ 3 ∧
    ((sqrt_floor 10 * sqrt_floor 10 ≤ 10 ∧
      10 < (sqrt_floor 10 + 1) * (sqrt_floor 10 + 1)) ∧
     (∃ p, root_floor 10 3 = some p ∧
       p.1 ^ 3 ≤ 10 ∧ 10 < (p.1 + 1) ^ 3 ∧ (p.2 = true ↔ p.1 ^ 3 = 10)) ∧
     root_floor 10 1 = some (10, true)) :=
  ⟨by decide, claim_C3_sqrt_root 10 3 (by decide)⟩

/-- C4: for every valid prime-cache state, `primes_upto(n)` returns exactly
the primes `p <= n` (every prime is at least 2), strictly ascending; empty
for `n <= 1`; and monotone as sets: for `m <= n`, every member of
`primes_upto(m)` is a member of `primes_upto(n)` (in any valid state). -/
theorem claim_C4_primes_upto (st : PCache) (hst : Valid st) (x : Int) :
    (∀ p, p ∈ primes_upto x st ↔ Nat.Prime p ∧ (p : Int) ≤ x) ∧
    List.Pairwise (· < ·) (primes_upto x st) ∧
    (x ≤ 1 → primes_upto x st = []) ∧
    (∀ (y : Int) (st' : PCache), Valid st' → x ≤ y →
      ∀ p, p ∈ primes_upto x st → p ∈ primes_upto y st') := by
  rw [primes_upto_valid st hst x]
  refine ⟨fun p => mem_cachePrimes x p, cachePrimes_sorted x, ?_, ?_⟩
  · intro hx
    unfold cachePrimes
    rw [if_pos hx]
  · intro y st' hst' hxy p hp
    rw [primes_upto_valid st' hst' y, mem_cachePrimes]
    rw [mem_cachePrimes] at hp
    exact ⟨hp.1, le_trans hp.2 hxy⟩

/-- Witness for C4 at `n = 22` from the initial cache state. -/
theorem claim_C4_witness :
    Valid initState ∧
    ((∀ p, p ∈ primes_upto 22 initState ↔ Nat.Prime p ∧ (p : Int) ≤ 22) ∧
     List.Pairwise (· < ·) (primes_upto 22 initState) ∧
     ((22 : Int) ≤ 1 → primes_upto 22 initState = []) ∧
     (∀ (y : Int) (st' : PCache), Valid st' → 22 ≤ y →
       ∀ p, p ∈ primes_upto 22 initState → p ∈ primes_upto y st')) :=
  ⟨⟨rfl, le_rfl⟩, claim_C4_primes_upto initState ⟨rfl, le_rfl⟩ 22⟩

/-- C5 is refuted by a crash: from the initial cache state,
`prime_count_more(127, 3000)` does not return normally. The final fallback
branch of `prime_count_more` (src/intalg.py line 795) calls `prime_count`, a
name defined nowhere in the module, so the call raises `NameError` instead
of returning an over-estimate.  The branch is reached whenever `n >= 1`,
`accuracy >= 3000`, `n > accuracy`, and the cache limit is below `n`. -/
theorem claim_C5_prime_count_more_name_error :
    prime_count_more 127 3000 initState = .error .nameError := rfl

/-- C6: starting from the initial state (empty cache, limit 1), after every
finite sequence of cache operations the cached sequence contains exactly the
primes `2 <= p <= L` (strictly ascending, hence duplicate-free), and no
operation except `clear_prime_cache` decreases the limit `L`. -/
theorem claim_C6_cache_invariant (ops : List COp) (o : COp)
    (ho : o ≠ COp.clear) :
    (∀ p, p ∈ (runOps ops initState).cache ↔
      Nat.Prime p ∧ (p : Int) ≤ (runOps ops initState).limit) ∧
    List.Pairwise (· < ·) (runOps ops initState).cache ∧
    (runOps ops initState).limit ≤
      (stepState o (runOps ops initState)).limit := by
  have hv := runOps_valid ops
  refine ⟨?_, ?_, stepState_mono o (runOps ops initState) ho⟩
  · intro p
    rw [hv.1, mem_cachePrimes]
  · rw [hv.1]
    exact cachePrimes_sorted _

/-- Witness for C6 after `ensure_prime_cache_upto(10)`, with
`ensure_prime_cache_upto(5)` as the next (non-clearing) operation. -/
theorem claim_C6_witness :
    (COp.ensureUpto 5 ≠ COp.clear) ∧
    ((∀ p, p ∈ (runOps [COp.ensureUpto 10] initState).cache ↔
       Nat.Prime p ∧ (p : Int) ≤ (runOps [COp.ensureUpto 10] initState).limit) ∧
     List.Pairwise (· < ·) (runOps [COp.ensureUpto 10] initState).cache ∧
     (runOps [COp.ensureUpto 10] initState).limit ≤
       (stepState (COp.ensureUpto 5) (runOps [COp.ensureUpto 10] initState)).limit) :=
  ⟨by decide,
   claim_C6_cache_invariant [COp.ensureUpto 10] (COp.ensureUpto 5) (by decide)⟩

/-- C7: factorization is deterministic as a two-run property: for a fixed
`n`, a fixed divisor finder, a fixed cache state and small-primes global, two
`factorize` calls whose random sources are freshly seeded with the same seed
produce identical results — and a result carries both the factor list and
the complete sequence of internal random draws, so both coincide.  (With
both sources omitted, `factorize` seeds internally from its argument alone,
so the two runs are the same value of the same pure function.) -/
theorem claim_C7_factorize_deterministic (n : Int)
    (df : Nat → MiniIntRandom → Option (Nat × MiniIntRandom)) (st : PCache)
    (spg : List Nat) (fuel : Nat) (s : Nat) (r1 r2 : MiniIntRandom)
    (h1 : r1 = mkMiniIntRandom s) (h2 : r2 = mkMiniIntRandom s) :
    factorize n df (some r1) st spg fuel =
      factorize n df (some r2) st spg fuel := by
  rw [h1, h2]

/-- Witness for C7: two runs on `n = 36` with the default divisor finder
`brent` and sources both seeded with 5. -/
theorem claim_C7_witness :
    mkMiniIntRandom 5 = mkMiniIntRandom 5 ∧
    factorize 36 (fun k r => brent k r 64) (some (mkMiniIntRandom 5))
        initState [3, 5, 7] 16 =
      factorize 36 (fun k r => brent k r 64) (some (mkMiniIntRandom 5))
        initState [3, 5, 7] 16 :=
  ⟨rfl, claim_C7_factorize_deterministic 36 (fun k r => brent k r 64)
    initState [3, 5, 7] 16 5 (mkMiniIntRandom 5) (mkMiniIntRandom 5) rfl rfl⟩

/-- C8: for every `n >= 2` and every random-source state, whenever `pollard`
or `brent` returns a divisor `d`, then `d` divides `n` and `1 < d <= n`
(`d = n` signals failure for the caller to retry); and both return 2
immediately for every even `n >= 2`, leaving the random source untouched. -/
theorem claim_C8_divisor_finders (n : Nat) (hn : 2 ≤ n) (r0 : MiniIntRandom)
    (fuel : Nat) :
    (∀ d r', pollard n r0 fuel = some (d, r') → d ∣ n ∧ 1 < d ∧ d ≤ n) ∧
    (∀ d r', brent n r0 fuel = some (d, r') → d ∣ n ∧ 1 < d ∧ d ≤ n) ∧
    (n % 2 = 0 →
      pollard n r0 fuel = some (2, r0) ∧ brent n r0 fuel = some (2, r0)) :=
  ⟨fun d r' h => pollard_correct n r0 fuel hn d r' h,
   fun d r' h => brent_correct n r0 fuel hn d r' h,
   fun he => ⟨pollard_even n r0 fuel hn he, brent_even n r0 fuel hn he⟩⟩

/-- Witness for C8 at the even input `n = 4`. -/
theorem claim_C8_witness :
    2 ≤ 4 ∧
    (pollard 4 (mkMiniIntRandom 1) 8 = some (2, mkMiniIntRandom 1) ∧
     brent 4 (mkMiniIntRandom 1) 8 = some (2, mkMiniIntRandom 1)) :=
  ⟨by decide,
   (claim_C8_divisor_finders 4 (by decide) (mkMiniIntRandom 1) 8).2.2 (by decide)⟩

end Intalg

namespace Intalg

set_option maxRecDepth 10000

/-- C9 counterexample: at `n = 2^64 + 13` with `accuracy = 7` the source
(src/intalg.py line 884) returns the int `1` for a probable prime, and under
Python `==` (the numeric comparison, modelled by `pyNum`) that value is
indistinguishable from the `True` returned for certainly-prime inputs — so
the probabilistic result IS silently indistinguishable from a certain one by
the ordinary equality test, refuting the claim as stated. -/
theorem claim_C9_counterexample :
    pyNum (is_prime 18446744073709551629 (some 7) initState) =
      pyNum PyRet.pTrue := by decide

/-- C9 (amended): when `is_prime` reports probable rather than certain
primality it returns the int `1` (`pOne`), which is a distinct object from
the `True` (`pTrue`) and `False` (`pFalse`) constants — distinguishable by
type or identity checks — but its numeric value equals that of `True`, so
under Python `==` the probable result is NOT distinguishable from `True`. -/
theorem claim_C9_amended_tri_state :
    is_prime 18446744073709551629 (some 7) initState = PyRet.pOne ∧
    PyRet.pOne ≠ PyRet.pTrue ∧ PyRet.pOne ≠ PyRet.pFalse ∧
    pyNum PyRet.pOne = pyNum PyRet.pTrue := by decide

/-- C10: `primes_upto(n)` leaves the prime cache completely unchanged (the
source only reads the globals on lines 288-290 of src/intalg.py and builds
fresh lists, captured by its state-free embedding): its step in the cache
state machine is the identity, and deleting a `primes_upto` call from any
operation sequence leaves the final cache state unchanged. -/
theorem claim_C10_primes_upto_frame (x : Int) (st : PCache)
    (ops1 ops2 : List COp) :
    stepState (COp.primesUpto x) st = st ∧
    runOps (ops1 ++ COp.primesUpto x :: ops2) initState =
      runOps (ops1 ++ ops2) initState := by
  refine ⟨rfl, ?_⟩
  unfold runOps
  rw [List.foldl_append, List.foldl_append, List.foldl_cons]
  rfl

end Intalg
